import Mathlib

/-!
Verification of the Hua Rong Dao sliding-block solver (`hrd.py`).

The Python source is shallowly embedded: pieces, boards and the rendered
grid are translated directly; the two search loops (`dfs`, `astar`) are
embedded with an explicit fuel parameter standing for the `while` loop,
returning `none` when the fuel runs out and `some r` when the loop finishes
with result `r`.  Python `int` is embedded as `Int`; the 4x5 grid is a
`List (List Char)` built exactly as `__construct_grid` builds it.
-/

namespace Hrd

def char_goal : Char := '1'
def char_single : Char := '2'

/-- `Piece` from the source: flags `is_goal`/`is_single`, the top-left
anchor `(coord_x, coord_y)`, and `orientation` (`some 'h'`/`some 'v'` for
1x2 pieces, `none` otherwise, matching Python's `None`). -/
structure Piece where
  is_goal : Bool
  is_single : Bool
  coord_x : Int
  coord_y : Int
  orientation : Option Char
deriving DecidableEq, Repr

/-- The rendered grid: a list of rows of characters, as the Python
list-of-lists `self.grid`. -/
abbrev Grid := List (List Char)

/-- Python list indexing semantics for reads/writes: an index in
`[0, len)` is used as is, an index in `[-len, 0)` wraps; anything else
raises `IndexError` (embedded as `none`; the solver never indexes out of
range on the boards the claims quantify over). -/
def pyIdx (n : Int) (len : Nat) : Option Nat :=
  if 0 ≤ n ∧ n < (len : Int) then some n.toNat
  else if 0 ≤ n + (len : Int) ∧ n < 0 then some (n + (len : Int)).toNat
  else none

/-- `grid[y][x] = c` (a raising write is a no-op here; unreachable on
in-bounds pieces). -/
def setCell (g : Grid) (y x : Int) (c : Char) : Grid :=
  match pyIdx y g.length with
  | none => g
  | some yi =>
    match pyIdx x (g.getD yi []).length with
    | none => g
    | some xi => g.set yi ((g.getD yi []).set xi c)

/-- `grid[i][j]` for already-in-range natural indices. -/
def getCellN (g : Grid) (i j : Nat) : Char :=
  (g.getD i []).getD j '.'

/-- The all-empty 5x4 grid the constructor starts from. -/
def initGrid : Grid := List.replicate 5 (List.replicate 4 '.')

/-- One piece's writes in `Board.__construct_grid`, in source order. -/
def writePiece (g : Grid) (p : Piece) : Grid :=
  if p.is_goal then
    setCell (setCell (setCell (setCell g p.coord_y p.coord_x char_goal)
      p.coord_y (p.coord_x + 1) char_goal)
      (p.coord_y + 1) p.coord_x char_goal)
      (p.coord_y + 1) (p.coord_x + 1) char_goal
  else if p.is_single then
    setCell g p.coord_y p.coord_x char_single
  else if p.orientation = some 'h' then
    setCell (setCell g p.coord_y p.coord_x '<') p.coord_y (p.coord_x + 1) '>'
  else if p.orientation = some 'v' then
    setCell (setCell g p.coord_y p.coord_x '^') (p.coord_y + 1) p.coord_x 'v'
  else g

/-- `Board.__construct_grid`: pieces written left to right over the empty
grid, later pieces overwriting earlier ones where they (illegally)
overlap. -/
def construct_grid (pieces : List Piece) : Grid :=
  pieces.foldl writePiece initGrid

/-- `Board`: the piece list; the grid is the derived render (the source
computes it once in `__init__`, deterministically from the pieces). -/
structure Board where
  pieces : List Piece
deriving DecidableEq, Repr

def Board.grid (b : Board) : Grid := construct_grid b.pieces

/-- `Board.empty_spaces`: the `[i, j]` index pairs of empty cells. -/
def empty_spaces (b : Board) : List (Int × Int) :=
  (List.range 5).flatMap fun i => (List.range 4).filterMap fun j =>
    if getCellN b.grid i j = '.' then some ((i : Int), (j : Int)) else none

/-- `Board.is_empty`. -/
def is_empty (b : Board) (x y : Int) : Bool :=
  if x < 0 || x > 3 || y < 0 || y > 4 then false
  else decide ((y, x) ∈ empty_spaces b)

/-- `Board.get_goal`: anchor of the first goal piece (`none` if there is
none, where Python falls off the loop returning `None`). -/
def get_goal (b : Board) : Option (Int × Int) :=
  b.pieces.findSome? fun p =>
    if p.is_goal then some (p.coord_x, p.coord_y) else none

/-- `Board.__str__`: the row-major concatenation of the grid symbols,
the key `__eq__` compares. -/
def boardStr (b : Board) : String := String.mk b.grid.flatten

/-- `Board.__eq__`. -/
def boardEq (b1 b2 : Board) : Bool := boardStr b1 == boardStr b2

/-- The value `Board.__hash__` feeds to Python's opaque string hash
(`hash(str(self.grid))`); two boards hash equal when these keys are
equal. -/
def hashKey (b : Board) : Grid := b.grid

/-- `manhattan(board)`: `abs(goal[0] - 1) + abs(goal[1] - 3)` (Python
raises if the board has no goal piece; that case is embedded as `0` and
never reached on boards satisfying the data-model invariants). -/
def manhattan (b : Board) : Int :=
  match get_goal b with
  | some g => |g.1 - 1| + |g.2 - 3|
  | none => 0

/-- `State`: a board plus `f`, `depth` and the parent back-pointer. -/
inductive State where
  | mk (board : Board) (f : Int) (depth : Int) (parent : Option State)

def State.board : State → Board
  | .mk b _ _ _ => b

def State.f : State → Int
  | .mk _ f _ _ => f

def State.depth : State → Int
  | .mk _ _ d _ => d

def State.parent : State → Option State
  | .mk _ _ _ p => p

/-- `goal_test(state)`. -/
def goalB (b : Board) : Bool :=
  getCellN b.grid 3 1 == char_goal && getCellN b.grid 4 2 == char_goal

def goal_test (s : State) : Bool := goalB s.board

/-- `new_board(old_pieces, new_piece, former_piece)`: the moved piece goes
first, every other piece keeps its place.  The source filters by object
identity (`is not former_piece`); since every piece in a board is a
distinct object (each is freshly allocated), this removes exactly the
occurrence being iterated, embedded here by its index. -/
def new_board (old_pieces : List Piece) (new_piece : Piece) (i : Nat) : Board :=
  Board.mk (new_piece :: old_pieces.eraseIdx i)

/-- `generate_successors(state)`: the successor states in source order
(pieces left to right; directions in the source's `if`/`elif` shape). -/
def generate_successors (s : State) : List State :=
  let board := s.board
  let pieces := board.pieces
  let step := fun (newp : Piece) (i : Nat) =>
    let nb := new_board pieces newp i
    State.mk nb (manhattan nb + s.depth + 1) (s.depth + 1) (some s)
  pieces.enum.flatMap fun (i, p) =>
    if p.is_goal then
      if is_empty board (p.coord_x + 2) p.coord_y &&
         is_empty board (p.coord_x + 2) (p.coord_y + 1) then
        [step (Piece.mk true false (p.coord_x + 1) p.coord_y none) i]
      else if is_empty board (p.coord_x - 1) p.coord_y &&
              is_empty board (p.coord_x - 1) (p.coord_y + 1) then
        [step (Piece.mk true false (p.coord_x - 1) p.coord_y none) i]
      else if is_empty board p.coord_x (p.coord_y + 2) &&
              is_empty board (p.coord_x + 1) (p.coord_y + 2) then
        [step (Piece.mk true false p.coord_x (p.coord_y + 1) none) i]
      else if is_empty board p.coord_x (p.coord_y - 1) &&
              is_empty board (p.coord_x + 1) (p.coord_y - 1) then
        [step (Piece.mk true false p.coord_x (p.coord_y - 1) none) i]
      else []
    else if p.is_single then
      (if is_empty board (p.coord_x + 1) p.coord_y then
        [step (Piece.mk false true (p.coord_x + 1) p.coord_y none) i] else []) ++
      (if is_empty board (p.coord_x - 1) p.coord_y then
        [step (Piece.mk false true (p.coord_x - 1) p.coord_y none) i] else []) ++
      (if is_empty board p.coord_x (p.coord_y + 1) then
        [step (Piece.mk false true p.coord_x (p.coord_y + 1) none) i] else []) ++
      (if is_empty board p.coord_x (p.coord_y - 1) then
        [step (Piece.mk false true p.coord_x (p.coord_y - 1) none) i] else [])
    else if p.orientation ≠ none then
      if p.orientation = some 'h' then
        (if is_empty board (p.coord_x + 2) p.coord_y then
          [step (Piece.mk false false (p.coord_x + 1) p.coord_y (some 'h')) i] else []) ++
        (if is_empty board (p.coord_x - 1) p.coord_y then
          [step (Piece.mk false false (p.coord_x - 1) p.coord_y (some 'h')) i] else []) ++
        (if is_empty board p.coord_x (p.coord_y + 1) &&
            is_empty board (p.coord_x + 1) (p.coord_y + 1) then
          [step (Piece.mk false false p.coord_x (p.coord_y + 1) (some 'h')) i]
         else if is_empty board p.coord_x (p.coord_y - 1) &&
                 is_empty board (p.coord_x + 1) (p.coord_y - 1) then
          [step (Piece.mk false false p.coord_x (p.coord_y - 1) (some 'h')) i]
         else [])
      else if p.orientation = some 'v' then
        (if is_empty board (p.coord_x + 1) p.coord_y &&
            is_empty board (p.coord_x + 1) (p.coord_y + 1) then
          [step (Piece.mk false false (p.coord_x + 1) p.coord_y (some 'v')) i]
         else if is_empty board (p.coord_x - 1) p.coord_y &&
                 is_empty board (p.coord_x - 1) (p.coord_y + 1) then
          [step (Piece.mk false false (p.coord_x - 1) p.coord_y (some 'v')) i]
         else []) ++
        (if is_empty board p.coord_x (p.coord_y + 2) then
          [step (Piece.mk false false p.coord_x (p.coord_y + 1) (some 'v')) i] else []) ++
        (if is_empty board p.coord_x (p.coord_y - 1) then
          [step (Piece.mk false false p.coord_x (p.coord_y - 1) (some 'v')) i] else [])
      else []
    else []

/-- One pass of `dfs`'s inner `for successor in ...` loop: push successors
whose grid is not yet explored, recording their grids as it goes. -/
def pushAll : List State → List State → List Grid → List State × List Grid
  | [], f, e => (f, e)
  | s :: ss, f, e =>
    if s.board.grid ∈ e then pushAll ss f e
    else pushAll ss (f ++ [s]) (e ++ [s.board.grid])

/-- The `while` loop of `dfs`, with fuel: `none` means the fuel ran out,
`some r` that the loop finished returning `r`. -/
def dfsLoop : Nat → List State → List Grid → Option (Option State)
  | 0, _, _ => none
  | n + 1, frontier, explored =>
    match frontier.getLast? with
    | none => some none
    | some curr =>
      if goal_test curr then some (some curr)
      else
        let fe := pushAll (generate_successors curr) frontier.dropLast explored
        dfsLoop n fe.1 fe.2

/-- `dfs(initial)` with fuel. -/
def dfs (fuel : Nat) (initial : State) : Option (Option State) :=
  dfsLoop fuel [initial] []

/-- The key the A* explored dict compares boards by (`__eq__` via
`str(self)`). -/
def boardKey (b : Board) : String := boardStr b

def lookupExp : List (String × State) → String → Option State
  | [], _ => none
  | (k', v') :: rest, k => if k' = k then some v' else lookupExp rest k

def insertExp : List (String × State) → String → State → List (String × State)
  | [], k, v => [(k, v)]
  | (k', v') :: rest, k, v =>
    if k' = k then (k, v) :: rest else (k', v') :: insertExp rest k v

/-- `heapq.heappop` modelled from the spec: the frontier is a min-priority
queue on `f` (`State.__lt__`), ties broken arbitrarily (here: leftmost);
returns the popped state and the remaining frontier. -/
def popMin : List State → Option (State × List State)
  | [] => none
  | s :: rest =>
    match popMin rest with
    | none => some (s, [])
    | some (m, rest') => if m.f < s.f then some (m, s :: rest') else some (s, rest)

/-- One pass of `astar`'s inner `for successor in ...` loop: push and
record a successor when its board is new or strictly better than the
recorded state. -/
def relaxAll : List State → List State → List (String × State) →
    List State × List (String × State)
  | [], f, e => (f, e)
  | s :: ss, f, e =>
    let k := boardKey s.board
    match lookupExp e k with
    | none => relaxAll ss (f ++ [s]) (insertExp e k s)
    | some old =>
      if s.f < old.f then relaxAll ss (f ++ [s]) (insertExp e k s)
      else relaxAll ss f e

/-- The `while` loop of `astar`, with fuel. -/
def astarLoop : Nat → List State → List (String × State) → Option (Option State)
  | 0, _, _ => none
  | n + 1, frontier, explored =>
    match popMin frontier with
    | none => some none
    | some (curr, rest) =>
      if goal_test curr then some (some curr)
      else
        let fe := relaxAll (generate_successors curr) rest explored
        astarLoop n fe.1 fe.2

/-- `astar(initial)` with fuel, including its initial explored map
`{initial.board: initial}`. -/
def astar (fuel : Nat) (initial : State) : Option (Option State) :=
  astarLoop fuel [initial] [(boardKey initial.board, initial)]

/-- The back-pointer walk in `get_solution`: boards from the given state
back to the root. -/
def ancestors : State → List Board
  | .mk b _ _ none => [b]
  | .mk b _ _ (some p) => b :: ancestors p

/-- `get_solution(state, outputfile)`: the grids written to the output
file in order (root first, since the collected path is popped from its
tail), paired with the printed `state_count`. -/
def get_solution (s : Option State) : List Grid × Nat :=
  let path := match s with
    | none => []
    | some t => ancestors t
  ((path.reverse).map Board.grid, path.length)

/-! ## The data model: footprints, invariants -/

/-- The four axis directions of the data model (§4.2 of the spec). -/
inductive Dir
  | right | left | down | up
deriving DecidableEq

/-- The piece with the same kind and orientation, anchor shifted one cell
in direction `d`. -/
def movedPiece (p : Piece) (d : Dir) : Piece :=
  match d with
  | .right => { p with coord_x := p.coord_x + 1 }
  | .left => { p with coord_x := p.coord_x - 1 }
  | .down => { p with coord_y := p.coord_y + 1 }
  | .up => { p with coord_y := p.coord_y - 1 }

/-- The `(cell, symbol)` writes a piece performs in `__construct_grid`,
in write order (same branch structure as `writePiece`). -/
def Piece.renderCells (p : Piece) : List ((Int × Int) × Char) :=
  if p.is_goal then
    [((p.coord_x, p.coord_y), char_goal), ((p.coord_x + 1, p.coord_y), char_goal),
     ((p.coord_x, p.coord_y + 1), char_goal), ((p.coord_x + 1, p.coord_y + 1), char_goal)]
  else if p.is_single then [((p.coord_x, p.coord_y), char_single)]
  else if p.orientation = some 'h' then
    [((p.coord_x, p.coord_y), '<'), ((p.coord_x + 1, p.coord_y), '>')]
  else if p.orientation = some 'v' then
    [((p.coord_x, p.coord_y), '^'), ((p.coord_x, p.coord_y + 1), 'v')]
  else []

/-- A piece's footprint: the cells it occupies (§3 of the spec). -/
def Piece.cells (p : Piece) : List (Int × Int) := p.renderCells.map Prod.fst

/-- A cell lies within the 4x5 board. -/
def inB (c : Int × Int) : Prop := 0 ≤ c.1 ∧ c.1 ≤ 3 ∧ 0 ≤ c.2 ∧ c.2 ≤ 4

instance (c : Int × Int) : Decidable (inB c) := by unfold inB; infer_instance

/-- A piece is one of the data model's four kinds: Goal, Single,
HorizontalDomino, VerticalDomino. -/
def WfPiece (p : Piece) : Prop :=
  (p.is_goal = true ∧ p.is_single = false ∧ p.orientation = none) ∨
  (p.is_goal = false ∧ p.is_single = true ∧ p.orientation = none) ∨
  (p.is_goal = false ∧ p.is_single = false ∧
    (p.orientation = some 'h' ∨ p.orientation = some 'v'))

instance (p : Piece) : Decidable (WfPiece p) := by unfold WfPiece; infer_instance

/-- Two pieces' footprints are disjoint. -/
def PDisj (p q : Piece) : Prop := ∀ c, c ∈ p.cells → c ∈ q.cells → False

instance (p q : Piece) : Decidable (PDisj p q) := by unfold PDisj; infer_instance

/-- The data-model invariants of §3 on a piece list: well-formed kinds,
footprints inside the board, pairwise-disjoint footprints, exactly one
goal piece. -/
def InvL (L : List Piece) : Prop :=
  (∀ p ∈ L, WfPiece p) ∧ (∀ p ∈ L, ∀ c ∈ p.cells, inB c) ∧
  List.Pairwise PDisj L ∧ L.countP (fun p => p.is_goal) = 1

instance (L : List Piece) : Decidable (InvL L) := by unfold InvL; infer_instance

def Inv (b : Board) : Prop := InvL b.pieces

instance (b : Board) : Decidable (Inv b) := by unfold Inv; infer_instance

/-! ## Grid lemmas -/

/-- A 5-row, 4-column grid. -/
def GridShape (g : Grid) : Prop := g.length = 5 ∧ ∀ r ∈ g, r.length = 4

theorem shape_initGrid : GridShape initGrid := by
  constructor
  · simp [initGrid]
  · intro r hr
    simp only [initGrid, List.mem_replicate] at hr
    simp [hr.2]

theorem pyIdx_lt {n : Int} {len : Nat} {i : Nat} (h : pyIdx n len = some i) : i < len := by
  unfold pyIdx at h
  split_ifs at h <;> simp_all <;> omega

theorem getD_row_mem {g : Grid} {i : Nat} (h : i < g.length) : g.getD i [] ∈ g := by
  rw [List.getD_eq_getElem?_getD, List.getElem?_eq_getElem h]
  exact List.getElem_mem h

theorem shape_setCell {g : Grid} (hg : GridShape g) (y x : Int) (c : Char) :
    GridShape (setCell g y x c) := by
  unfold setCell
  split
  · exact hg
  next yi hyi =>
    split
    · exact hg
    next xi hxi =>
      refine ⟨by simpa using hg.1, ?_⟩
      intro r hr
      rcases List.mem_or_eq_of_mem_set hr with h | h
      · exact hg.2 r h
      · subst h
        rw [List.length_set]
        exact hg.2 _ (getD_row_mem (pyIdx_lt hyi))

theorem shape_writePiece {g : Grid} (hg : GridShape g) (p : Piece) :
    GridShape (writePiece g p) := by
  unfold writePiece
  split_ifs
  · exact shape_setCell (shape_setCell (shape_setCell (shape_setCell hg _ _ _) _ _ _) _ _ _) _ _ _
  · exact shape_setCell hg _ _ _
  · exact shape_setCell (shape_setCell hg _ _ _) _ _ _
  · exact shape_setCell (shape_setCell hg _ _ _) _ _ _
  · exact hg

theorem shape_foldl {L : List Piece} {g : Grid} (hg : GridShape g) :
    GridShape (L.foldl writePiece g) := by
  induction L generalizing g with
  | nil => exact hg
  | cons p L ih => exact ih (shape_writePiece hg p)

theorem shape_construct_grid (L : List Piece) : GridShape (construct_grid L) :=
  shape_foldl shape_initGrid

theorem pyIdx_of_nonneg {n : Int} {len : Nat} (h0 : 0 ≤ n) (h1 : n < (len : Int)) :
    pyIdx n len = some n.toNat := by
  unfold pyIdx
  rw [if_pos ⟨h0, h1⟩]

/-- Reading any cell after one bounded write. -/
theorem getCellN_setCell {g : Grid} (hg : GridShape g) {y x : Int} (c : Char)
    (hy0 : 0 ≤ y) (hy1 : y ≤ 4) (hx0 : 0 ≤ x) (hx1 : x ≤ 3) (i j : Nat) :
    getCellN (setCell g y x c) i j =
      if i = y.toNat ∧ j = x.toNat then c else getCellN g i j := by
  have hlen : g.length = 5 := hg.1
  have hylt : y.toNat < g.length := by omega
  have h1 : pyIdx y g.length = some y.toNat := pyIdx_of_nonneg hy0 (by omega)
  have hrow : (g.getD y.toNat []).length = 4 := hg.2 _ (getD_row_mem hylt)
  have h2 : pyIdx x (g.getD y.toNat []).length = some x.toNat := by
    rw [hrow]; exact pyIdx_of_nonneg hx0 (by omega)
  have hsc : setCell g y x c = g.set y.toNat ((g.getD y.toNat []).set x.toNat c) := by
    simp only [setCell, h1, h2]
  rw [hsc]
  simp only [getCellN, List.getD_eq_getElem?_getD] at hrow ⊢
  rw [List.getElem?_set]
  by_cases hi : y.toNat = i
  · subst hi
    rw [if_pos rfl, if_pos (by omega)]
    simp only [Option.getD_some]
    rw [List.getElem?_set]
    by_cases hj : x.toNat = j
    · subst hj
      rw [if_pos rfl, if_pos (by omega)]
      simp
    · rw [if_neg hj, if_neg (fun h => hj h.2.symm)]
  · rw [if_neg hi, if_neg (fun h => hi h.1.symm)]

/-- First pair wins in a piece's write list. -/
def symAt (p : Piece) (c : Int × Int) : Option Char := p.renderCells.lookup c

/-- The first piece of `L` covering `c`, if any, with its symbol there. -/
def cellSym (L : List Piece) (c : Int × Int) : Option Char :=
  L.findSome? fun p => symAt p c

def applyWrite (g : Grid) (w : (Int × Int) × Char) : Grid := setCell g w.1.2 w.1.1 w.2

theorem writePiece_eq_fold (g : Grid) (p : Piece) :
    writePiece g p = p.renderCells.foldl applyWrite g := by
  unfold writePiece Piece.renderCells applyWrite
  split_ifs <;> rfl

theorem symAt_eq_none_iff {p : Piece} {c : Int × Int} :
    symAt p c = none ↔ c ∉ p.cells := by
  simp only [symAt, List.lookup_eq_none_iff, Piece.cells, List.mem_map, bne_iff_ne, ne_eq]
  constructor
  · rintro h ⟨w, hw, rfl⟩
    exact h w hw rfl
  · intro h w hw hww
    exact h ⟨w, hw, hww.symm⟩

theorem mem_renderCells_of_symAt {p : Piece} {c : Int × Int} {s : Char}
    (h : symAt p c = some s) : (c, s) ∈ p.renderCells := by
  rw [symAt, List.lookup_eq_some_iff] at h
  obtain ⟨l1, l2, heq, -⟩ := h
  rw [heq]
  exact List.mem_append_right _ (List.mem_cons_self _ _)

theorem renderCells_keys_nodup (p : Piece) : (p.renderCells.map Prod.fst).Nodup := by
  unfold Piece.renderCells
  split_ifs <;> simp [Prod.ext_iff]

theorem lookup_of_mem_of_keys_nodup {l : List ((Int × Int) × Char)} {c : Int × Int} {s : Char}
    (hn : (l.map Prod.fst).Nodup) (h : (c, s) ∈ l) : l.lookup c = some s := by
  induction l with
  | nil => cases h
  | cons a l ih =>
    obtain ⟨k, v⟩ := a
    simp only [List.map_cons, List.nodup_cons] at hn
    rcases List.mem_cons.mp h with heq | h'
    · obtain ⟨rfl, rfl⟩ := Prod.mk.injEq .. ▸ heq
      exact List.lookup_cons_self
    · have hne : c ≠ k := by
        rintro rfl
        exact hn.1 (List.mem_map_of_mem Prod.fst h')
      have hbe : (c == k) = false := by simp [hne]
      rw [List.lookup_cons, hbe]
      exact ih hn.2 h'

theorem symAt_eq_some_of_mem {p : Piece} {c : Int × Int} {s : Char}
    (h : (c, s) ∈ p.renderCells) : symAt p c = some s :=
  lookup_of_mem_of_keys_nodup (renderCells_keys_nodup p) h

/-- Reading a cell after a keys-nodup list of bounded writes. -/
theorem getCellN_foldWrites {ws : List ((Int × Int) × Char)} {g : Grid} (hg : GridShape g)
    (hb : ∀ w ∈ ws, inB w.1) (hn : (ws.map Prod.fst).Nodup) {c : Int × Int} (hc : inB c) :
    getCellN (ws.foldl applyWrite g) c.2.toNat c.1.toNat =
      (ws.lookup c).getD (getCellN g c.2.toNat c.1.toNat) := by
  induction ws generalizing g with
  | nil => simp
  | cons w ws ih =>
    obtain ⟨d, s⟩ := w
    have hd : inB d := hb _ (List.mem_cons_self _ _)
    simp only [List.map_cons, List.nodup_cons] at hn
    simp only [List.foldl_cons, List.lookup_cons]
    have hbase : applyWrite g (d, s) = setCell g d.2 d.1 s := rfl
    rw [hbase, ih (shape_setCell hg _ _ _) (fun w hw => hb w (List.mem_cons_of_mem _ hw)) hn.2]
    have hset : getCellN (setCell g d.2 d.1 s) c.2.toNat c.1.toNat =
        if c.2.toNat = d.2.toNat ∧ c.1.toNat = d.1.toNat then s
        else getCellN g c.2.toNat c.1.toNat :=
      getCellN_setCell hg s hd.2.2.1 hd.2.2.2 hd.1 hd.2.1 _ _
    by_cases he : c = d
    · subst he
      rw [hset, if_pos ⟨rfl, rfl⟩]
      have : c ∉ ws.map Prod.fst := hn.1
      have hl : ws.lookup c = none := by
        rw [List.lookup_eq_none_iff]
        intro q hq
        simp only [bne_iff_ne, ne_eq]
        rintro rfl
        exact this (List.mem_map_of_mem Prod.fst hq)
      simp [hl]
    · have hne : ¬(c.2.toNat = d.2.toNat ∧ c.1.toNat = d.1.toNat) := by
        rintro ⟨h1, h2⟩
        apply he
        have hx := hc.1
        have hy := hc.2.2.1
        have hdx := hd.1
        have hdy := hd.2.2.1
        exact Prod.ext (by omega) (by omega)
      rw [hset, if_neg hne]
      have : (c == d) = false := by simp [he]
      simp [this]

/-- Reading a cell of the grid built from a bounded, pairwise-disjoint
piece list: the first (hence only) covering piece's symbol, else `'.'`
from the base grid. -/
theorem getCellN_foldl_pieces {L : List Piece} {g : Grid} (hg : GridShape g)
    (hb : ∀ p ∈ L, ∀ c ∈ p.cells, inB c) (hd : List.Pairwise PDisj L)
    {c : Int × Int} (hc : inB c) :
    getCellN (L.foldl writePiece g) c.2.toNat c.1.toNat =
      (cellSym L c).getD (getCellN g c.2.toNat c.1.toNat) := by
  induction L generalizing g with
  | nil => simp [cellSym]
  | cons p L ih =>
    simp only [List.foldl_cons, cellSym, List.findSome?_cons]
    rw [ih (shape_writePiece hg p) (fun q hq => hb q (List.mem_cons_of_mem _ hq))
      (List.Pairwise.of_cons hd)]
    have hwp : getCellN (writePiece g p) c.2.toNat c.1.toNat =
        (symAt p c).getD (getCellN g c.2.toNat c.1.toNat) := by
      rw [writePiece_eq_fold]
      have hbp : ∀ w ∈ p.renderCells, inB w.1 := by
        intro w hw
        exact hb p (List.mem_cons_self _ _) w.1 (List.mem_map_of_mem Prod.fst hw)
      exact getCellN_foldWrites hg hbp (renderCells_keys_nodup p) hc
    cases hs : symAt p c with
    | some s =>
      have hcp : c ∈ p.cells := by
        by_contra hcc
        rw [symAt_eq_none_iff.mpr hcc] at hs
        cases hs
      have hnone : cellSym L c = none := by
        unfold cellSym
        rw [List.findSome?_eq_none_iff]
        intro q hq
        rw [symAt_eq_none_iff]
        intro hcq
        exact (List.pairwise_cons.mp hd).1 q hq c hcp hcq
      rw [hnone, hwp, hs]
      simp
    | none =>
      rw [hwp, hs]
      simp [cellSym]

theorem getCellN_initGrid (i j : Nat) : getCellN initGrid i j = '.' := by
  unfold getCellN initGrid
  simp only [List.getD_eq_getElem?_getD, List.getElem?_replicate]
  by_cases hi : i < 5
  · rw [if_pos hi]
    simp only [Option.getD_some, List.getElem?_replicate]
    split_ifs <;> rfl
  · rw [if_neg hi]
    rfl

/-- The master render lemma: under bounded and disjoint footprints, the
grid cell at an in-bounds `c` carries the covering piece's symbol, or
`'.'` when no piece covers `c`. -/
theorem construct_grid_cell {L : List Piece}
    (hb : ∀ p ∈ L, ∀ c ∈ p.cells, inB c) (hd : List.Pairwise PDisj L)
    {c : Int × Int} (hc : inB c) :
    getCellN (construct_grid L) c.2.toNat c.1.toNat = (cellSym L c).getD '.' := by
  unfold construct_grid
  rw [getCellN_foldl_pieces shape_initGrid hb hd hc, getCellN_initGrid]

theorem cellSym_eq_some {L : List Piece} (hd : List.Pairwise PDisj L) {p : Piece}
    (hp : p ∈ L) {c : Int × Int} {s : Char} (hcs : (c, s) ∈ p.renderCells) :
    cellSym L c = some s := by
  induction L with
  | nil => cases hp
  | cons q L ih =>
    rcases List.mem_cons.mp hp with rfl | hp'
    · unfold cellSym
      rw [List.findSome?_cons, symAt_eq_some_of_mem hcs]
    · have hcpc : c ∈ p.cells := List.mem_map_of_mem Prod.fst hcs
      have hq : symAt q c = none := by
        rw [symAt_eq_none_iff]
        intro hcq
        exact (List.pairwise_cons.mp hd).1 p hp' c hcq hcpc
      unfold cellSym
      rw [List.findSome?_cons, hq]
      exact ih (List.Pairwise.of_cons hd) hp'

theorem cellSym_eq_none_iff {L : List Piece} {c : Int × Int} :
    cellSym L c = none ↔ ∀ p ∈ L, c ∉ p.cells := by
  unfold cellSym
  rw [List.findSome?_eq_none_iff]
  constructor
  · intro h p hp
    rw [← symAt_eq_none_iff]
    exact h p hp
  · intro h p hp
    rw [symAt_eq_none_iff]
    exact h p hp

theorem cellSym_mem {L : List Piece} {c : Int × Int} {s : Char}
    (h : cellSym L c = some s) : ∃ p ∈ L, (c, s) ∈ p.renderCells := by
  obtain ⟨p, hp, hs⟩ := List.exists_of_findSome?_eq_some h
  exact ⟨p, hp, mem_renderCells_of_symAt hs⟩

/-- `is_empty` answers exactly: in bounds and the grid cell is `'.'`. -/
theorem is_empty_iff {b : Board} {x y : Int} :
    is_empty b x y = true ↔
      (0 ≤ x ∧ x ≤ 3 ∧ 0 ≤ y ∧ y ≤ 4 ∧ getCellN b.grid y.toNat x.toNat = '.') := by
  unfold is_empty
  split_ifs with h
  · simp only [Bool.false_eq_true, false_iff]
    rintro ⟨h1, h2, h3, h4, -⟩
    simp only [Bool.or_eq_true, decide_eq_true_eq] at h
    omega
  · simp only [Bool.or_eq_true, decide_eq_true_eq, not_or] at h
    simp only [decide_eq_true_eq]
    have hx0 : 0 ≤ x := by omega
    have hx1 : x ≤ 3 := by omega
    have hy0 : 0 ≤ y := by omega
    have hy1 : y ≤ 4 := by omega
    unfold empty_spaces
    simp only [List.mem_flatMap, List.mem_filterMap, List.mem_range]
    constructor
    · rintro ⟨i, hi, j, ⟨hj, hcell⟩⟩
      split_ifs at hcell with hcc
      · simp only [Option.some.injEq, Prod.mk.injEq] at hcell
        obtain ⟨hyi, hxj⟩ := hcell
        have : y.toNat = i := by omega
        have : x.toNat = j := by omega
        refine ⟨hx0, hx1, hy0, hy1, ?_⟩
        simp_all
    · rintro ⟨-, -, -, -, hcell⟩
      refine ⟨y.toNat, by omega, x.toNat, by omega, ?_⟩
      rw [if_pos hcell]
      simp only [Option.some.injEq, Prod.mk.injEq]
      constructor <;> omega

/-! ## Board-level render facts under the invariants -/

theorem grid_cell_of_renderCells {b : Board} (h : Inv b) {p : Piece}
    (hp : p ∈ b.pieces) {c : Int × Int} {s : Char} (hcs : (c, s) ∈ p.renderCells) :
    getCellN b.grid c.2.toNat c.1.toNat = s := by
  obtain ⟨hw, hb, hd, hg⟩ := h
  have hc : inB c := hb p hp c (List.mem_map_of_mem Prod.fst hcs)
  show getCellN (construct_grid b.pieces) c.2.toNat c.1.toNat = s
  rw [construct_grid_cell hb hd hc, cellSym_eq_some hd hp hcs]
  rfl

theorem grid_cell_empty {b : Board} (h : Inv b) {c : Int × Int} (hc : inB c)
    (hn : ∀ p ∈ b.pieces, c ∉ p.cells) :
    getCellN b.grid c.2.toNat c.1.toNat = '.' := by
  obtain ⟨hw, hb, hd, hg⟩ := h
  show getCellN (construct_grid b.pieces) c.2.toNat c.1.toNat = '.'
  rw [construct_grid_cell hb hd hc, cellSym_eq_none_iff.mpr hn]
  rfl

theorem grid_cell_mem {b : Board} (h : Inv b) {c : Int × Int} (hc : inB c) {s : Char}
    (hs : getCellN b.grid c.2.toNat c.1.toNat = s) (hne : s ≠ '.') :
    ∃ p ∈ b.pieces, (c, s) ∈ p.renderCells := by
  obtain ⟨hw, hb, hd, hg⟩ := h
  rw [show b.grid = construct_grid b.pieces from rfl,
    construct_grid_cell hb hd hc] at hs
  cases hcs : cellSym b.pieces c with
  | none => rw [hcs] at hs; exact absurd hs.symm (by simpa using hne)
  | some t =>
    rw [hcs] at hs
    simp only [Option.getD_some] at hs
    subst hs
    exact cellSym_mem hcs

/-- The unique goal piece of an invariant-satisfying board. -/
theorem exists_unique_goal {b : Board} (h : Inv b) :
    ∃ p ∈ b.pieces, p.is_goal = true ∧ (∀ q ∈ b.pieces, q.is_goal = true → q = p) ∧
      get_goal b = some (p.coord_x, p.coord_y) := by
  have hcount := h.2.2.2
  rw [List.countP_eq_length_filter] at hcount
  obtain ⟨a, ha⟩ := List.length_eq_one.mp hcount
  have hamem : a ∈ b.pieces.filter (fun p => p.is_goal) := by rw [ha]; exact List.mem_cons_self _ _
  rw [List.mem_filter] at hamem
  refine ⟨a, hamem.1, by simpa using hamem.2, ?_, ?_⟩
  · intro q hq hqg
    have : q ∈ b.pieces.filter (fun p => p.is_goal) := List.mem_filter.mpr ⟨hq, by simp [hqg]⟩
    rw [ha] at this
    simpa using this
  · unfold get_goal
    cases hfs : b.pieces.findSome? fun p =>
        if p.is_goal = true then some (p.coord_x, p.coord_y) else none with
    | none =>
      rw [List.findSome?_eq_none_iff] at hfs
      have := hfs a hamem.1
      rw [if_pos (by simpa using hamem.2)] at this
      cases this
    | some v =>
      obtain ⟨q, hq, hqv⟩ := List.exists_of_findSome?_eq_some hfs
      by_cases hqg : q.is_goal = true
      · rw [if_pos hqg] at hqv
        have hqa : q = a := by
          have : q ∈ b.pieces.filter (fun p => p.is_goal) := List.mem_filter.mpr ⟨hq, by simp [hqg]⟩
          rw [ha] at this
          simpa using this
        rw [hqa] at hqv
        rw [hqv]
      · rw [if_neg hqg] at hqv
        cases hqv

/-- Which pieces can put `char_goal` on a cell: only the goal piece. -/
theorem renderCells_goal_char {p : Piece} {c : Int × Int}
    (h : (c, char_goal) ∈ p.renderCells) :
    p.is_goal = true ∧
      (c = (p.coord_x, p.coord_y) ∨ c = (p.coord_x + 1, p.coord_y) ∨
       c = (p.coord_x, p.coord_y + 1) ∨ c = (p.coord_x + 1, p.coord_y + 1)) := by
  unfold Piece.renderCells at h
  split_ifs at h with h1 h2 h3 h4 <;> simp_all [char_goal, char_single]

/-- The goal piece is anchored at `(1, 3)` exactly when the goal test
succeeds (under the data-model invariants). -/
theorem goalB_iff_anchor {b : Board} (h : Inv b) :
    goalB b = true ↔ get_goal b = some (1, 3) := by
  obtain ⟨p, hp, hpg, huniq, hgg⟩ := exists_unique_goal h
  constructor
  · intro hgoal
    unfold goalB at hgoal
    simp only [Bool.and_eq_true, beq_iff_eq] at hgoal
    have h31 : getCellN b.grid ((3 : Int)).toNat ((1 : Int)).toNat = char_goal := hgoal.1
    have h42 : getCellN b.grid ((4 : Int)).toNat ((2 : Int)).toNat = char_goal := hgoal.2
    obtain ⟨q1, hq1, hq1m⟩ := grid_cell_mem h (c := ((1 : Int), (3 : Int))) (by decide) h31
      (by decide)
    obtain ⟨q2, hq2, hq2m⟩ := grid_cell_mem h (c := ((2 : Int), (4 : Int))) (by decide) h42
      (by decide)
    obtain ⟨hg1, hc1⟩ := renderCells_goal_char hq1m
    obtain ⟨hg2, hc2⟩ := renderCells_goal_char hq2m
    have hq1p : q1 = p := huniq q1 hq1 hg1
    have hq2p : q2 = p := huniq q2 hq2 hg2
    rw [hq1p] at hc1
    rw [hq2p] at hc2
    rw [hgg]
    have : p.coord_x = 1 ∧ p.coord_y = 3 := by
      rcases hc1 with h | h | h | h <;> rcases hc2 with h' | h' | h' | h' <;>
        simp only [Prod.mk.injEq] at h h' <;> omega
    rw [this.1, this.2]
  · intro hanchor
    rw [hgg] at hanchor
    simp only [Option.some.injEq, Prod.mk.injEq] at hanchor
    have hx : p.coord_x = 1 := hanchor.1
    have hy : p.coord_y = 3 := hanchor.2
    have hrc : ((p.coord_x, p.coord_y), char_goal) ∈ p.renderCells ∧
        ((p.coord_x + 1, p.coord_y + 1), char_goal) ∈ p.renderCells := by
      unfold Piece.renderCells
      rw [if_pos hpg]
      exact ⟨List.mem_cons_self _ _, by simp⟩
    have e1 := grid_cell_of_renderCells h hp hrc.1
    have e2 := grid_cell_of_renderCells h hp hrc.2
    rw [hx, hy] at e1 e2
    have e1' : getCellN b.grid 3 1 = char_goal := e1
    have e2' : getCellN b.grid 4 2 = char_goal := e2
    unfold goalB
    simp [e1', e2']

/-- C4 — Heuristic-goal agreement: for every board satisfying the
data-model invariants, `manhattan b = 0` iff the goal test succeeds,
which in turn holds iff the goal piece is anchored at `(1, 3)`. -/
theorem manhattan_zero_iff_goal_test (b : Board) (h : Inv b) :
    (manhattan b = 0 ↔ goalB b = true) ∧ (goalB b = true ↔ get_goal b = some (1, 3)) := by
  refine ⟨?_, goalB_iff_anchor h⟩
  obtain ⟨p, hp, hpg, huniq, hgg⟩ := exists_unique_goal h
  unfold manhattan
  rw [hgg]
  rw [goalB_iff_anchor h, hgg]
  simp only [Option.some.injEq, Prod.mk.injEq]
  constructor
  · intro h0
    have ha1 := abs_nonneg (p.coord_x - 1)
    have ha2 := abs_nonneg (p.coord_y - 3)
    have h1 : |p.coord_x - 1| = 0 := by omega
    have h2 : |p.coord_y - 3| = 0 := by omega
    rw [abs_eq_zero] at h1 h2
    constructor <;> omega
  · rintro ⟨hx, hy⟩
    rw [hx, hy]
    simp

/-- Witness for C4 at a concrete solved board. -/
theorem manhattan_zero_iff_goal_test_witness :
    manhattan (Board.mk [Piece.mk true false 1 3 none]) = 0 ↔
      goalB (Board.mk [Piece.mk true false 1 3 none]) = true :=
  (manhattan_zero_iff_goal_test _ (by decide)).1

/-! ## Successor structure -/

/-- The shape every successor state has: the new board wrapped with
`f = manhattan + depth + 1`, `depth + 1` and the expanding state as
parent. -/
theorem mem_gs_shape {s t : State} (ht : t ∈ generate_successors s) :
    ∃ nb, t = State.mk nb (manhattan nb + s.depth + 1) (s.depth + 1) (some s) := by
  unfold generate_successors at ht
  simp only [List.mem_flatMap] at ht
  obtain ⟨⟨i, p⟩, hip, hbody⟩ := ht
  dsimp only at hbody
  split_ifs at hbody <;>
    simp only [List.mem_append, List.mem_singleton, List.not_mem_nil, or_false,
      false_or] at hbody <;>
    (try casesm* _ ∨ _) <;>
    exact ⟨_, by assumption⟩

/-- C5 — Successor bookkeeping: every state produced by expanding `s` has
depth `s.depth + 1`, cost `manhattan` of its own board plus `s.depth + 1`,
and parent `s`. -/
theorem successor_bookkeeping (s t : State) (ht : t ∈ generate_successors s) :
    t.depth = s.depth + 1 ∧ t.f = manhattan t.board + s.depth + 1 ∧ t.parent = some s := by
  obtain ⟨nb, rfl⟩ := mem_gs_shape ht
  exact ⟨rfl, rfl, rfl⟩

/-- The destination cells a slide must find empty, taken from the spec's
legality bullets in §4.2 (a direction is legal only if all listed cells
are currently empty). -/
def specDest (p : Piece) (d : Dir) : List (Int × Int) :=
  if p.is_goal then
    match d with
    | .right => [(p.coord_x + 2, p.coord_y), (p.coord_x + 2, p.coord_y + 1)]
    | .left => [(p.coord_x - 1, p.coord_y), (p.coord_x - 1, p.coord_y + 1)]
    | .down => [(p.coord_x, p.coord_y + 2), (p.coord_x + 1, p.coord_y + 2)]
    | .up => [(p.coord_x, p.coord_y - 1), (p.coord_x + 1, p.coord_y - 1)]
  else if p.is_single then
    match d with
    | .right => [(p.coord_x + 1, p.coord_y)]
    | .left => [(p.coord_x - 1, p.coord_y)]
    | .down => [(p.coord_x, p.coord_y + 1)]
    | .up => [(p.coord_x, p.coord_y - 1)]
  else if p.orientation = some 'h' then
    match d with
    | .right => [(p.coord_x + 2, p.coord_y)]
    | .left => [(p.coord_x - 1, p.coord_y)]
    | .down => [(p.coord_x, p.coord_y + 1), (p.coord_x + 1, p.coord_y + 1)]
    | .up => [(p.coord_x, p.coord_y - 1), (p.coord_x + 1, p.coord_y - 1)]
  else if p.orientation = some 'v' then
    match d with
    | .right => [(p.coord_x + 1, p.coord_y), (p.coord_x + 1, p.coord_y + 1)]
    | .left => [(p.coord_x - 1, p.coord_y), (p.coord_x - 1, p.coord_y + 1)]
    | .down => [(p.coord_x, p.coord_y + 2)]
    | .up => [(p.coord_x, p.coord_y - 1)]
  else []

/-- A direction is legal for a piece when every listed destination cell is
currently empty (§4.2). -/
def legal (b : Board) (p : Piece) (d : Dir) : Bool :=
  (specDest p d).all fun c => is_empty b c.1 c.2

/-- Which moves `generate_successors` actually emits: the code checks the
same cells as `legal`, but chains some directions with `elif`, so a later
direction fires only when every earlier one in the chain is illegal. -/
def allowed (b : Board) (p : Piece) (d : Dir) : Bool :=
  if p.is_goal then
    match d with
    | .right => legal b p .right
    | .left => legal b p .left && !legal b p .right
    | .down => legal b p .down && !legal b p .right && !legal b p .left
    | .up => legal b p .up && !legal b p .right && !legal b p .left && !legal b p .down
  else if p.is_single then legal b p d
  else if p.orientation = some 'h' then
    match d with
    | .right => legal b p .right
    | .left => legal b p .left
    | .down => legal b p .down
    | .up => legal b p .up && !legal b p .down
  else if p.orientation = some 'v' then
    match d with
    | .right => legal b p .right
    | .left => legal b p .left && !legal b p .right
    | .down => legal b p .down
    | .up => legal b p .up
  else false

/-- The state built by moving the piece at index `i` one cell in
direction `d`. -/
def mkMove (s : State) (i : Nat) (p : Piece) (d : Dir) : State :=
  State.mk (new_board s.board.pieces (movedPiece p d) i)
    (manhattan (new_board s.board.pieces (movedPiece p d) i) + s.depth + 1)
    (s.depth + 1) (some s)

def dirOrder : List Dir := [.right, .left, .down, .up]

theorem flatMap_congr {α β : Type} {l : List α} {f g : α → List β}
    (h : ∀ x ∈ l, f x = g x) : l.flatMap f = l.flatMap g := by
  induction l with
  | nil => rfl
  | cons a l ih =>
    simp only [List.flatMap_cons]
    rw [h a (List.mem_cons_self _ _), ih fun x hx => h x (List.mem_cons_of_mem _ hx)]

/-- `generate_successors`, re-expressed move by move: for each piece (by
position) and each direction in source order, a successor appears exactly
when the code's (`elif`-chained) test fires. -/
theorem gs_eq {s : State} (hwf : ∀ p ∈ s.board.pieces, WfPiece p) :
    generate_successors s = s.board.pieces.enum.flatMap fun ip =>
      dirOrder.filterMap fun d =>
        if allowed s.board ip.2 d = true then some (mkMove s ip.1 ip.2 d) else none := by
  unfold generate_successors
  apply flatMap_congr
  rintro ⟨i, p⟩ hip
  have hpm : p ∈ s.board.pieces := by
    rw [List.mem_enum_iff_getElem?] at hip
    exact List.getElem?_mem hip
  have hw := hwf p hpm
  dsimp only
  rcases hw with ⟨hg, hsg, ho⟩ | ⟨hg, hsg, ho⟩ | ⟨hg, hsg, ho⟩
  · -- goal piece
    have hR : legal s.board p .right =
        (is_empty s.board (p.coord_x + 2) p.coord_y &&
         is_empty s.board (p.coord_x + 2) (p.coord_y + 1)) := by
      simp [legal, specDest, hg]
    have hL : legal s.board p .left =
        (is_empty s.board (p.coord_x - 1) p.coord_y &&
         is_empty s.board (p.coord_x - 1) (p.coord_y + 1)) := by
      simp [legal, specDest, hg]
    have hD : legal s.board p .down =
        (is_empty s.board p.coord_x (p.coord_y + 2) &&
         is_empty s.board (p.coord_x + 1) (p.coord_y + 2)) := by
      simp [legal, specDest, hg]
    have hU : legal s.board p .up =
        (is_empty s.board p.coord_x (p.coord_y - 1) &&
         is_empty s.board (p.coord_x + 1) (p.coord_y - 1)) := by
      simp [legal, specDest, hg]
    by_cases cR : (is_empty s.board (p.coord_x + 2) p.coord_y &&
        is_empty s.board (p.coord_x + 2) (p.coord_y + 1)) = true <;>
      by_cases cL : (is_empty s.board (p.coord_x - 1) p.coord_y &&
        is_empty s.board (p.coord_x - 1) (p.coord_y + 1)) = true <;>
      by_cases cD : (is_empty s.board p.coord_x (p.coord_y + 2) &&
        is_empty s.board (p.coord_x + 1) (p.coord_y + 2)) = true <;>
      by_cases cU : (is_empty s.board p.coord_x (p.coord_y - 1) &&
        is_empty s.board (p.coord_x + 1) (p.coord_y - 1)) = true <;>
      simp [hg, hsg, ho, dirOrder, allowed, hR, hL, hD, hU, cR, cL, cD, cU,
        mkMove, movedPiece]
  · -- single piece
    have hR : legal s.board p .right = is_empty s.board (p.coord_x + 1) p.coord_y := by
      simp [legal, specDest, hg, hsg]
    have hL : legal s.board p .left = is_empty s.board (p.coord_x - 1) p.coord_y := by
      simp [legal, specDest, hg, hsg]
    have hD : legal s.board p .down = is_empty s.board p.coord_x (p.coord_y + 1) := by
      simp [legal, specDest, hg, hsg]
    have hU : legal s.board p .up = is_empty s.board p.coord_x (p.coord_y - 1) := by
      simp [legal, specDest, hg, hsg]
    by_cases cR : is_empty s.board (p.coord_x + 1) p.coord_y = true <;>
      by_cases cL : is_empty s.board (p.coord_x - 1) p.coord_y = true <;>
      by_cases cD : is_empty s.board p.coord_x (p.coord_y + 1) = true <;>
      by_cases cU : is_empty s.board p.coord_x (p.coord_y - 1) = true <;>
      simp [hg, hsg, ho, dirOrder, allowed, hR, hL, hD, hU, cR, cL, cD, cU,
        mkMove, movedPiece]
  · -- domino
    rcases ho with hh | hv
    · have hR : legal s.board p .right = is_empty s.board (p.coord_x + 2) p.coord_y := by
        simp [legal, specDest, hg, hsg, hh]
      have hL : legal s.board p .left = is_empty s.board (p.coord_x - 1) p.coord_y := by
        simp [legal, specDest, hg, hsg, hh]
      have hD : legal s.board p .down =
          (is_empty s.board p.coord_x (p.coord_y + 1) &&
           is_empty s.board (p.coord_x + 1) (p.coord_y + 1)) := by
        simp [legal, specDest, hg, hsg, hh]
      have hU : legal s.board p .up =
          (is_empty s.board p.coord_x (p.coord_y - 1) &&
           is_empty s.board (p.coord_x + 1) (p.coord_y - 1)) := by
        simp [legal, specDest, hg, hsg, hh]
      by_cases cR : is_empty s.board (p.coord_x + 2) p.coord_y = true <;>
        by_cases cL : is_empty s.board (p.coord_x - 1) p.coord_y = true <;>
        by_cases cD : (is_empty s.board p.coord_x (p.coord_y + 1) &&
          is_empty s.board (p.coord_x + 1) (p.coord_y + 1)) = true <;>
        by_cases cU : (is_empty s.board p.coord_x (p.coord_y - 1) &&
          is_empty s.board (p.coord_x + 1) (p.coord_y - 1)) = true <;>
        simp [hg, hsg, hh, dirOrder, allowed, hR, hL, hD, hU, cR, cL, cD, cU,
          mkMove, movedPiece]
    · have hR : legal s.board p .right =
          (is_empty s.board (p.coord_x + 1) p.coord_y &&
           is_empty s.board (p.coord_x + 1) (p.coord_y + 1)) := by
        simp [legal, specDest, hg, hsg, hv]
      have hL : legal s.board p .left =
          (is_empty s.board (p.coord_x - 1) p.coord_y &&
           is_empty s.board (p.coord_x - 1) (p.coord_y + 1)) := by
        simp [legal, specDest, hg, hsg, hv]
      have hD : legal s.board p .down = is_empty s.board p.coord_x (p.coord_y + 2) := by
        simp [legal, specDest, hg, hsg, hv]
      have hU : legal s.board p .up = is_empty s.board p.coord_x (p.coord_y - 1) := by
        simp [legal, specDest, hg, hsg, hv]
      by_cases cR : (is_empty s.board (p.coord_x + 1) p.coord_y &&
          is_empty s.board (p.coord_x + 1) (p.coord_y + 1)) = true <;>
        by_cases cL : (is_empty s.board (p.coord_x - 1) p.coord_y &&
          is_empty s.board (p.coord_x - 1) (p.coord_y + 1)) = true <;>
        by_cases cD : is_empty s.board p.coord_x (p.coord_y + 2) = true <;>
        by_cases cU : is_empty s.board p.coord_x (p.coord_y - 1) = true <;>
        simp [hg, hsg, hv, dirOrder, allowed, hR, hL, hD, hU, cR, cL, cD, cU,
          mkMove, movedPiece]

/-- Membership form of `gs_eq`. -/
theorem mem_gs_iff {s : State} (hwf : ∀ p ∈ s.board.pieces, WfPiece p) (t : State) :
    t ∈ generate_successors s ↔
      ∃ i p d, s.board.pieces[i]? = some p ∧ allowed s.board p d = true ∧
        t = mkMove s i p d := by
  rw [gs_eq hwf]
  simp only [List.mem_flatMap, List.mem_filterMap, List.mem_enum_iff_getElem?,
    Option.ite_none_right_eq_some, Option.some.injEq, Prod.exists]
  constructor
  · rintro ⟨i, p, hip, d, hdm, hd, ht⟩
    exact ⟨i, p, d, hip, hd, ht.symm⟩
  · rintro ⟨i, p, d, hip, hd, ht⟩
    exact ⟨i, p, hip, d, by cases d <;> simp [dirOrder], hd, ht.symm⟩

theorem legal_of_allowed {b : Board} {p : Piece} {d : Dir}
    (h : allowed b p d = true) : legal b p d = true := by
  unfold allowed at h
  split_ifs at h <;> cases d <;> simp_all

/-- An allowed move's destination cells are in bounds and empty. -/
theorem legal_dest {b : Board} {p : Piece} {d : Dir} (h : legal b p d = true)
    {c : Int × Int} (hc : c ∈ specDest p d) :
    inB c ∧ getCellN b.grid c.2.toNat c.1.toNat = '.' := by
  unfold legal at h
  rw [List.all_eq_true] at h
  have := h c hc
  rw [is_empty_iff] at this
  exact ⟨⟨this.1, this.2.1, this.2.2.1, this.2.2.2.1⟩, this.2.2.2.2⟩

theorem movedPiece_flags (p : Piece) (d : Dir) :
    (movedPiece p d).is_goal = p.is_goal ∧ (movedPiece p d).is_single = p.is_single ∧
      (movedPiece p d).orientation = p.orientation := by
  cases d <;> exact ⟨rfl, rfl, rfl⟩

/-- A moved piece's footprint lies inside the old footprint together with
the checked destination cells (for each kind and direction). -/
theorem movedPiece_cells_subset {p : Piece} (hw : WfPiece p) (d : Dir) :
    ∀ c ∈ (movedPiece p d).cells, c ∈ p.cells ∨ c ∈ specDest p d := by
  intro c hc
  obtain ⟨cx, cy⟩ := c
  rcases hw with ⟨hg, hs, ho⟩ | ⟨hg, hs, ho⟩ | ⟨hg, hs, ho⟩ <;>
    [skip; skip; rcases ho with ho | ho] <;>
    cases d <;>
    simp [Piece.cells, Piece.renderCells, movedPiece, specDest, hg, hs, ho,
      Prod.mk.injEq] at hc ⊢ <;>
    omega

/-- `renderCells` never writes the empty symbol. -/
theorem renderCells_snd_ne_dot {p : Piece} {w : (Int × Int) × Char}
    (hw : w ∈ p.renderCells) : w.2 ≠ '.' := by
  unfold Piece.renderCells at hw
  split_ifs at hw <;>
    simp only [List.mem_cons, List.not_mem_nil, or_false] at hw <;>
    (try casesm* _ ∨ _) <;>
    subst_vars <;>
    simp [char_goal, char_single]

/-- A cell of a piece carries some non-empty symbol in its render list. -/
theorem cells_sym {p : Piece} {c : Int × Int} (hc : c ∈ p.cells) :
    ∃ s, (c, s) ∈ p.renderCells ∧ s ≠ '.' := by
  unfold Piece.cells at hc
  obtain ⟨w, hw, hfst⟩ := List.mem_map.mp hc
  refine ⟨w.2, ?_, renderCells_snd_ne_dot hw⟩
  have : w = (c, w.2) := by
    rw [← hfst]
  rw [← this]
  exact hw

theorem cells_nonempty {p : Piece} (hw : WfPiece p) : p.cells ≠ [] := by
  rcases hw with ⟨hg, hs, ho⟩ | ⟨hg, hs, ho⟩ | ⟨hg, hs, ho⟩ <;>
    [skip; skip; rcases ho with ho | ho] <;>
    simp [Piece.cells, Piece.renderCells, hg, hs, ho]

theorem pdisj_symm : Symmetric PDisj := fun _ _ h c hc1 hc2 => h c hc2 hc1

theorem invL_nodup {L : List Piece} (h : InvL L) : L.Nodup := by
  obtain ⟨hw, -, hd, -⟩ := h
  rw [List.nodup_iff_sublist]
  intro a ha
  have haL : a ∈ L := ha.subset (List.mem_cons_self _ _)
  have hR : PDisj a a := by
    have := List.Pairwise.sublist ha hd
    exact (List.pairwise_cons.mp this).1 a (List.mem_cons_self _ _)
  obtain ⟨c, hc⟩ := List.exists_mem_of_ne_nil _ (cells_nonempty (hw a haL))
  exact hR c hc hc

theorem pdisj_of_mem_ne {L : List Piece} (hd : List.Pairwise PDisj L) {p q : Piece}
    (hp : p ∈ L) (hq : q ∈ L) (hne : p ≠ q) : PDisj p q :=
  hd.forall pdisj_symm hp hq hne

theorem list_decomp {L : List Piece} {i : Nat} {p : Piece} (h : L[i]? = some p) :
    L = L.take i ++ p :: L.drop (i + 1) ∧ L.eraseIdx i = L.take i ++ L.drop (i + 1) := by
  obtain ⟨hi, hp⟩ := List.getElem?_eq_some_iff.mp h
  constructor
  · conv_lhs => rw [← List.take_append_drop i L]
    rw [List.drop_eq_getElem_cons hi, hp]
  · exact List.eraseIdx_eq_take_drop_succ L i

/-- Moving an allowed move's piece preserves all the data-model
invariants. -/
theorem invL_move {L : List Piece} (h : InvL L) {i : Nat} {p : Piece}
    (hip : L[i]? = some p) {d : Dir}
    (hleg : legal (Board.mk L) p d = true) :
    InvL (movedPiece p d :: L.eraseIdx i) := by
  obtain ⟨hwf, hbd, hdj, hcnt⟩ := h
  have hpL : p ∈ L := List.getElem?_mem hip
  have hwp : WfPiece p := hwf p hpL
  have hnd : L.Nodup := invL_nodup ⟨hwf, hbd, hdj, hcnt⟩
  have hsub : List.Sublist (L.eraseIdx i) L := List.eraseIdx_sublist L i
  have hmem : ∀ q ∈ L.eraseIdx i, q ∈ L := fun q hq => hsub.subset hq
  obtain ⟨hLdec, hEdec⟩ := list_decomp hip
  have hpne : ∀ q ∈ L.eraseIdx i, q ≠ p := by
    intro q hq hqp
    subst hqp
    rw [hEdec] at hq
    have hndL := hnd
    rw [hLdec, List.nodup_append] at hndL
    rcases List.mem_append.mp hq with hq | hq
    · exact hndL.2.2 hq (List.mem_cons_self _ _)
    · exact (List.nodup_cons.mp hndL.2.1).1 hq
  have hmoved_wf : WfPiece (movedPiece p d) := by
    obtain ⟨f1, f2, f3⟩ := movedPiece_flags p d
    unfold WfPiece
    rw [f1, f2, f3]
    exact hwp
  have hmdisj : ∀ q ∈ L.eraseIdx i, PDisj (movedPiece p d) q := by
    intro q hq c hc1 hc2
    rcases movedPiece_cells_subset hwp d c hc1 with hcp | hcd
    · exact pdisj_of_mem_ne hdj hpL (hmem q hq) (fun he => hpne q hq he.symm) c hcp hc2
    · obtain ⟨hcin, hcdot⟩ := legal_dest hleg hcd
      obtain ⟨sym, hsymm, hsne⟩ := cells_sym hc2
      have := grid_cell_of_renderCells (b := Board.mk L) ⟨hwf, hbd, hdj, hcnt⟩
        (hmem q hq) hsymm
      rw [this] at hcdot
      exact hsne hcdot
  refine ⟨?_, ?_, ?_, ?_⟩
  · rintro q hq
    rcases List.mem_cons.mp hq with rfl | hq
    · exact hmoved_wf
    · exact hwf q (hmem q hq)
  · rintro q hq c hc
    rcases List.mem_cons.mp hq with rfl | hq
    · rcases movedPiece_cells_subset hwp d c hc with hcp | hcd
      · exact hbd p hpL c hcp
      · exact (legal_dest hleg hcd).1
    · exact hbd q (hmem q hq) c hc
  · exact List.pairwise_cons.mpr ⟨hmdisj, hdj.sublist hsub⟩
  · have hmg : (movedPiece p d).is_goal = p.is_goal := (movedPiece_flags p d).1
    rw [List.countP_cons, hEdec, List.countP_append]
    conv_lhs at hcnt => rw [hLdec]
    rw [List.countP_append, List.countP_cons] at hcnt
    simp only [hmg]
    omega

/-- Invariant preservation, helper form: every successor of an
invariant-satisfying board again satisfies the data-model invariants. -/
theorem inv_step {s t : State} (h : Inv s.board)
    (ht : t ∈ generate_successors s) : Inv t.board := by
  obtain ⟨i, p, d, hip, hall, rfl⟩ := (mem_gs_iff h.1 t).mp ht
  exact invL_move h hip (legal_of_allowed hall)

/-- C3 — Move-generation soundness: every successor of an
invariant-satisfying board again satisfies the data-model invariants: its
piece footprints are pairwise disjoint and lie within the 4x5 bounds (so
no rendered cell is claimed by two pieces and the goal piece never leaves
the board), each piece is well-formed, and there is exactly one goal
piece. -/
theorem successors_preserve_inv (s t : State) (h : Inv s.board)
    (ht : t ∈ generate_successors s) : Inv t.board :=
  inv_step h ht

/-- Witness for C3: a one-piece board one move from the solved position. -/
theorem successors_preserve_inv_witness :
    Inv (State.mk (Board.mk [Piece.mk true false 1 3 none]) 1 1
        (some (State.mk (Board.mk [Piece.mk true false 2 3 none]) 1 0 none))).board :=
  successors_preserve_inv
    (State.mk (Board.mk [Piece.mk true false 2 3 none]) 1 0 none) _ (by decide)
    (by
      rw [show generate_successors
          (State.mk (Board.mk [Piece.mk true false 2 3 none]) 1 0 none) =
        [State.mk (Board.mk [Piece.mk true false 1 3 none]) 1 1
          (some (State.mk (Board.mk [Piece.mk true false 2 3 none]) 1 0 none))] from rfl]
      exact List.mem_cons_self _ _)

/-! ## Injectivity of moves on boards -/

theorem getElem_mem_eraseIdx_of_ne {α : Type} :
    ∀ {L : List α} {i j : Nat} (hi : i < L.length), i ≠ j → L[i] ∈ L.eraseIdx j
  | [], i, j, hi, _ => absurd hi (by simp)
  | a :: L, i, 0, hi, hij => by
    cases i with
    | zero => exact absurd rfl hij
    | succ i' =>
      simp only [List.eraseIdx_cons_zero, List.getElem_cons_succ]
      exact List.getElem_mem _
  | a :: L, 0, j + 1, hi, hij => by
    simp only [List.eraseIdx_cons_succ, List.getElem_cons_zero]
    exact List.mem_cons_self _ _
  | a :: L, i + 1, j + 1, hi, hij => by
    simp only [List.eraseIdx_cons_succ, List.getElem_cons_succ]
    exact List.mem_cons_of_mem _
      (getElem_mem_eraseIdx_of_ne (by simpa using hi) (fun h => hij (by rw [h])))

theorem getElem_not_mem_eraseIdx_self {α : Type} :
    ∀ {L : List α} {i : Nat} (_ : L.Nodup) (hi : i < L.length), L[i] ∉ L.eraseIdx i
  | [], i, _, hi => absurd hi (by simp)
  | a :: L, 0, hnd, hi => by
    simp only [List.eraseIdx_cons_zero, List.getElem_cons_zero]
    exact (List.nodup_cons.mp hnd).1
  | a :: L, i + 1, hnd, hi => by
    simp only [List.eraseIdx_cons_succ, List.getElem_cons_succ, List.mem_cons, not_or]
    constructor
    · intro h
      exact (List.nodup_cons.mp hnd).1 (h ▸ List.getElem_mem (by simpa using hi))
    · exact getElem_not_mem_eraseIdx_self (List.nodup_cons.mp hnd).2 (by simpa using hi)

theorem eraseIdx_ne_of_ne {α : Type} {L : List α} (hnd : L.Nodup) {i j : Nat}
    (hi : i < L.length) (hij : i ≠ j) : L.eraseIdx i ≠ L.eraseIdx j := by
  intro he
  have h1 : L[i] ∈ L.eraseIdx j := getElem_mem_eraseIdx_of_ne hi hij
  rw [← he] at h1
  exact getElem_not_mem_eraseIdx_self hnd hi h1

theorem movedPiece_inj_dir {p : Piece} {d e : Dir}
    (h : movedPiece p d = movedPiece p e) : d = e := by
  have hx := congrArg Piece.coord_x h
  have hy := congrArg Piece.coord_y h
  cases d <;> cases e <;> first
    | rfl
    | (simp only [movedPiece] at hx hy; omega)

/-- Distinct (piece, direction) moves give distinct boards. -/
theorem mkMove_board_inj {s : State} (h : Inv s.board) {i j : Nat} {p q : Piece}
    (hip : s.board.pieces[i]? = some p) (hjq : s.board.pieces[j]? = some q)
    {d e : Dir} (heq : (mkMove s i p d).board = (mkMove s j q e).board) :
    i = j ∧ d = e ∧ p = q := by
  have hnd : s.board.pieces.Nodup := invL_nodup h
  obtain ⟨hi, hpi⟩ := List.getElem?_eq_some_iff.mp hip
  obtain ⟨hj, hqj⟩ := List.getElem?_eq_some_iff.mp hjq
  have hBoards : movedPiece p d :: s.board.pieces.eraseIdx i =
      movedPiece q e :: s.board.pieces.eraseIdx j := congrArg Board.pieces heq
  have hhead : movedPiece p d = movedPiece q e := (List.cons.injEq .. ▸ hBoards).1
  have htail : s.board.pieces.eraseIdx i = s.board.pieces.eraseIdx j :=
    (List.cons.injEq .. ▸ hBoards).2
  have hij : i = j := by
    by_contra hne
    exact eraseIdx_ne_of_ne hnd hi hne htail
  subst hij
  have hpq : p = q := by rw [← hpi, ← hqj]
  subst hpq
  exact ⟨rfl, movedPiece_inj_dir hhead, rfl⟩

/-- The boards of the successors of an invariant board are pairwise
distinct: each move produces its own board. -/
theorem successor_boards_nodup (s : State) (h : Inv s.board) :
    ((generate_successors s).map State.board).Nodup := by
  rw [gs_eq h.1, List.map_flatMap]
  rw [List.nodup_flatMap]
  constructor
  · rintro ⟨i, p⟩ hip
    rw [List.mem_enum_iff_getElem?] at hip
    dsimp only at hip
    rw [List.map_filterMap]
    refine List.Nodup.filterMap ?_ (by decide)
    intro d e bb hbd hbe
    simp only [Option.mem_def, Option.map_eq_some'] at hbd hbe
    obtain ⟨t1, ht1, rfl⟩ := hbd
    obtain ⟨t2, ht2, hbb⟩ := hbe
    rw [Option.ite_none_right_eq_some, Option.some.injEq] at ht1 ht2
    obtain ⟨ha1, rfl⟩ := ht1
    obtain ⟨ha2, rfl⟩ := ht2
    exact (mkMove_board_inj h hip hip hbb.symm).2.1
  · have hnd : s.board.pieces.enum.Nodup :=
      (List.nodup_enum_map_fst s.board.pieces).of_map
    refine hnd.imp_of_mem ?_
    rintro ⟨i, p⟩ ⟨j, q⟩ hipm hjqm hne
    rw [List.mem_enum_iff_getElem?] at hipm hjqm
    dsimp only at hipm hjqm
    rw [Function.onFun, List.disjoint_left]
    intro bb hbi hbj
    simp only [List.map_filterMap, List.mem_filterMap, Option.map_eq_some'] at hbi hbj
    obtain ⟨d, -, t1, ht1, rfl⟩ := hbi
    obtain ⟨e, -, t2, ht2, hbb⟩ := hbj
    rw [Option.ite_none_right_eq_some, Option.some.injEq] at ht1 ht2
    obtain ⟨ha1, rfl⟩ := ht1
    obtain ⟨ha2, rfl⟩ := ht2
    have hij := (mkMove_board_inj h hipm hjqm hbb.symm).1
    subst hij
    rw [hipm] at hjqm
    have hpq : p = q := Option.some.inj hjqm
    exact hne (by rw [hpq])

/-- Example root: the goal piece one cell right of the target. -/
def exS : State := State.mk (Board.mk [Piece.mk true false 2 3 none]) 1 0 none

/-- Its unique successor: the goal piece slid left onto the target. -/
def exT : State := State.mk (Board.mk [Piece.mk true false 1 3 none]) 1 1 (some exS)

theorem exT_mem : exT ∈ generate_successors exS := by
  rw [show generate_successors exS = [exT] from rfl]
  exact List.mem_cons_self _ _

/-- C1 counterexample: on the invariant board holding only the goal piece
at `(1, 1)`, all four directions are legal for the goal piece, yet
`generate_successors` emits exactly one successor (the right move) — in
particular no successor moves the goal piece left, refuting
one-successor-per-legal-direction. -/
theorem goal_elif_counterexample :
    Inv (Board.mk [Piece.mk true false 1 1 none]) ∧
    (legal (Board.mk [Piece.mk true false 1 1 none]) (Piece.mk true false 1 1 none)
        Dir.right = true ∧
     legal (Board.mk [Piece.mk true false 1 1 none]) (Piece.mk true false 1 1 none)
        Dir.left = true ∧
     legal (Board.mk [Piece.mk true false 1 1 none]) (Piece.mk true false 1 1 none)
        Dir.down = true ∧
     legal (Board.mk [Piece.mk true false 1 1 none]) (Piece.mk true false 1 1 none)
        Dir.up = true) ∧
    (generate_successors
      (State.mk (Board.mk [Piece.mk true false 1 1 none]) 2 0 none)).length = 1 ∧
    ¬ ∃ t ∈ generate_successors
        (State.mk (Board.mk [Piece.mk true false 1 1 none]) 2 0 none),
        t.board = Board.mk [Piece.mk true false 0 1 none] :=
  ⟨by decide, by decide, rfl, by decide⟩

/-- C1 (amended) — Move emission: for an invariant board, the move of the
piece at index `i` in direction `d` appears among the successors exactly
when the code's `elif`-chained test `allowed` fires (for a Single piece
`allowed` coincides with the spec's per-direction legality, so all four
directions are independent), and an emitted move appears exactly once. -/
theorem move_emission (s : State) (h : Inv s.board) {i : Nat} {p : Piece}
    (hip : s.board.pieces[i]? = some p) (d : Dir) :
    (mkMove s i p d ∈ generate_successors s ↔ allowed s.board p d = true) ∧
    (p.is_single = true → allowed s.board p d = legal s.board p d) ∧
    ((generate_successors s).map State.board).count (mkMove s i p d).board =
      (if allowed s.board p d = true then 1 else 0) := by
  have hmemiff : mkMove s i p d ∈ generate_successors s ↔ allowed s.board p d = true := by
    rw [mem_gs_iff h.1]
    constructor
    · rintro ⟨j, q, e, hjq, hall, heq⟩
      have hbeq : (mkMove s i p d).board = (mkMove s j q e).board := by rw [heq]
      obtain ⟨rfl, rfl, rfl⟩ := mkMove_board_inj h hip hjq hbeq
      exact hall
    · intro hall
      exact ⟨i, p, d, hip, hall, rfl⟩
  refine ⟨hmemiff, ?_, ?_⟩
  · intro hsing
    have hng : p.is_goal = false := by
      rcases h.1 p (List.getElem?_mem hip) with ⟨-, hs, -⟩ | ⟨hg, -, -⟩ | ⟨-, hs, -⟩
      · rw [hsing] at hs; cases hs
      · exact hg
      · rw [hsing] at hs; cases hs
    unfold allowed
    simp [hng, hsing]
  · by_cases hall : allowed s.board p d = true
    · rw [if_pos hall]
      exact List.count_eq_one_of_mem (successor_boards_nodup s h)
        (List.mem_map_of_mem State.board (hmemiff.mpr hall))
    · rw [if_neg hall]
      apply List.count_eq_zero_of_not_mem
      intro hmem
      obtain ⟨t, htm, hbt⟩ := List.mem_map.mp hmem
      obtain ⟨j, q, e, hjq, hall', heq⟩ := (mem_gs_iff h.1 t).mp htm
      subst heq
      obtain ⟨rfl, rfl, rfl⟩ := mkMove_board_inj h hjq hip hbt
      exact hall hall'

/-- Witness for the amended C1 at a concrete board: the goal piece at
`(2, 3)` may move left (right is blocked by the wall), and the emitted
left move is among the successors. -/
theorem move_emission_witness :
    mkMove exS 0 (Piece.mk true false 2 3 none) Dir.left ∈ generate_successors exS :=
  ((move_emission exS (by decide) (i := 0) (p := Piece.mk true false 2 3 none) rfl
    Dir.left).1).mpr (by decide)

theorem movedPiece_shift (p : Piece) (d : Dir) :
    |(movedPiece p d).coord_x - p.coord_x| + |(movedPiece p d).coord_y - p.coord_y| = 1 := by
  cases d <;>
    simp [movedPiece, add_sub_cancel_left, sub_sub_cancel_left, sub_self, abs_neg,
      abs_one, abs_zero]

/-- C6 — Frame property of a move: every successor board consists of the
moved piece — same kind, same orientation, anchor shifted by exactly one
cell — put in front of the remaining pieces, which keep their kinds,
orientations and anchors in order; no piece is added, removed, or
otherwise moved. -/
theorem successor_frame (s t : State) (h : Inv s.board)
    (ht : t ∈ generate_successors s) :
    ∃ i d, ∃ hi : i < s.board.pieces.length,
      t.board.pieces = movedPiece s.board.pieces[i] d :: s.board.pieces.eraseIdx i ∧
      (movedPiece s.board.pieces[i] d).is_goal = s.board.pieces[i].is_goal ∧
      (movedPiece s.board.pieces[i] d).is_single = s.board.pieces[i].is_single ∧
      (movedPiece s.board.pieces[i] d).orientation = s.board.pieces[i].orientation ∧
      |(movedPiece s.board.pieces[i] d).coord_x - s.board.pieces[i].coord_x| +
        |(movedPiece s.board.pieces[i] d).coord_y - s.board.pieces[i].coord_y| = 1 := by
  obtain ⟨i, p, d, hip, hall, rfl⟩ := (mem_gs_iff h.1 t).mp ht
  obtain ⟨hi, hpi⟩ := List.getElem?_eq_some_iff.mp hip
  subst hpi
  exact ⟨i, d, hi, rfl, (movedPiece_flags _ d).1, (movedPiece_flags _ d).2.1,
    (movedPiece_flags _ d).2.2, movedPiece_shift _ d⟩

/-- Witness for C6 at the concrete one-move example. -/
theorem successor_frame_witness :
    ∃ i d, ∃ hi : i < exS.board.pieces.length,
      exT.board.pieces = movedPiece exS.board.pieces[i] d :: exS.board.pieces.eraseIdx i ∧
      (movedPiece exS.board.pieces[i] d).is_goal = exS.board.pieces[i].is_goal ∧
      (movedPiece exS.board.pieces[i] d).is_single = exS.board.pieces[i].is_single ∧
      (movedPiece exS.board.pieces[i] d).orientation = exS.board.pieces[i].orientation ∧
      |(movedPiece exS.board.pieces[i] d).coord_x - exS.board.pieces[i].coord_x| +
        |(movedPiece exS.board.pieces[i] d).coord_y - exS.board.pieces[i].coord_y| = 1 :=
  successor_frame exS exT (by decide) exT_mem

/-- Witness for C5 at the concrete one-move example. -/
theorem successor_bookkeeping_witness :
    exT.depth = exS.depth + 1 ∧ exT.f = manhattan exT.board + exS.depth + 1 ∧
      exT.parent = some exS :=
  successor_bookkeeping exS exT exT_mem

/-! ## Equality and hashing over the rendered grid (C7) -/

theorem getCellN_eq_getElem {g : Grid} {i j : Nat} :
    ∀ (h1 : i < g.length) (h2 : j < g[i].length), getCellN g i j = g[i][j] := by
  intro h1 h2
  unfold getCellN
  simp only [List.getD_eq_getElem?_getD]
  rw [List.getElem?_eq_getElem h1]
  simp only [Option.getD_some]
  rw [List.getElem?_eq_getElem h2]
  rfl

theorem grid_ext {g1 g2 : Grid} (h1 : GridShape g1) (h2 : GridShape g2)
    (h : ∀ i j, i < 5 → j < 4 → getCellN g1 i j = getCellN g2 i j) : g1 = g2 := by
  apply List.ext_getElem (by rw [h1.1, h2.1])
  intro i hi1 hi2
  have hi : i < 5 := by rw [← h1.1]; exact hi1
  apply List.ext_getElem
  · rw [h1.2 _ (List.getElem_mem hi1), h2.2 _ (List.getElem_mem hi2)]
  · intro j hj1 hj2
    have hj : j < 4 := by rw [← h1.2 _ (List.getElem_mem hi1)]; exact hj1
    rw [← getCellN_eq_getElem hi1 hj1, ← getCellN_eq_getElem hi2 hj2]
    exact h i j hi hj

/-- Rendering is invariant under permutation of a bounded, disjoint piece
list. -/
theorem render_perm {L1 L2 : List Piece} (hperm : L1.Perm L2)
    (hb : ∀ p ∈ L1, ∀ c ∈ p.cells, inB c) (hd : List.Pairwise PDisj L1) :
    construct_grid L1 = construct_grid L2 := by
  have hb2 : ∀ p ∈ L2, ∀ c ∈ p.cells, inB c := fun p hp => hb p (hperm.mem_iff.mpr hp)
  have hd2 : List.Pairwise PDisj L2 := (hperm.pairwise_iff (fun hab => pdisj_symm hab)).mp hd
  apply grid_ext (shape_construct_grid L1) (shape_construct_grid L2)
  intro i j hi hj
  have hc : inB ((j : Int), (i : Int)) := by
    refine ⟨by omega, by omega, by omega, by omega⟩
  have e1 : getCellN (construct_grid L1) i j = (cellSym L1 ((j : Int), (i : Int))).getD '.' :=
    construct_grid_cell hb hd hc
  have e2 : getCellN (construct_grid L2) i j = (cellSym L2 ((j : Int), (i : Int))).getD '.' :=
    construct_grid_cell hb2 hd2 hc
  rw [e1, e2]
  congr 1
  cases hcs : cellSym L1 ((j : Int), (i : Int)) with
  | none =>
    symm
    rw [cellSym_eq_none_iff] at hcs ⊢
    exact fun p hp => hcs p (hperm.mem_iff.mpr hp)
  | some s =>
    obtain ⟨p, hp, hpc⟩ := cellSym_mem hcs
    exact (cellSym_eq_some hd2 (hperm.subset hp) hpc).symm

/-- C7 counterexample: two boards built from the same two (overlapping!)
pieces in opposite orders render different grids, so `__eq__` is false
and the hash keys differ, refuting the claim for piece lists that violate
the disjointness invariant. -/
theorem board_perm_eq_counterexample :
    (Board.mk [Piece.mk false true 0 0 none,
        Piece.mk false false 0 0 (some 'h')]).pieces.Perm
      (Board.mk [Piece.mk false false 0 0 (some 'h'),
        Piece.mk false true 0 0 none]).pieces ∧
    boardEq (Board.mk [Piece.mk false true 0 0 none,
        Piece.mk false false 0 0 (some 'h')])
      (Board.mk [Piece.mk false false 0 0 (some 'h'),
        Piece.mk false true 0 0 none]) = false ∧
    hashKey (Board.mk [Piece.mk false true 0 0 none,
        Piece.mk false false 0 0 (some 'h')]) ≠
      hashKey (Board.mk [Piece.mk false false 0 0 (some 'h'),
        Piece.mk false true 0 0 none]) := by
  refine ⟨?_, by decide, by decide⟩
  decide

/-- C7 (amended) — Structural equality and hashing over the rendered
grid: two boards whose piece lists are permutations of one another and
whose footprints are pairwise disjoint and in bounds (the data-model
invariant) render the same grid, so `__eq__` holds and the hash keys
agree; moreover equality and hashing depend only on the rendered grid:
any two boards with the same grid compare equal and hash equal. -/
theorem board_eq_of_perm (b1 b2 : Board) (hperm : b1.pieces.Perm b2.pieces)
    (hb : ∀ p ∈ b1.pieces, ∀ c ∈ p.cells, inB c)
    (hd : List.Pairwise PDisj b1.pieces) :
    (boardEq b1 b2 = true ∧ boardStr b1 = boardStr b2 ∧ hashKey b1 = hashKey b2) ∧
    (∀ b3 b4 : Board, b3.grid = b4.grid →
      boardEq b3 b4 = true ∧ hashKey b3 = hashKey b4) := by
  have hg : b1.grid = b2.grid := render_perm hperm hb hd
  have hdep : ∀ b3 b4 : Board, b3.grid = b4.grid →
      boardEq b3 b4 = true ∧ hashKey b3 = hashKey b4 := by
    intro b3 b4 h34
    refine ⟨?_, ?_⟩
    · unfold boardEq boardStr
      rw [h34]
      simp
    · unfold hashKey
      rw [h34]
  refine ⟨⟨(hdep b1 b2 hg).1, ?_, (hdep b1 b2 hg).2⟩, hdep⟩
  unfold boardStr
  rw [hg]

/-- Witness for the amended C7: two singles listed in opposite orders. -/
theorem board_eq_of_perm_witness :
    (boardEq (Board.mk [Piece.mk false true 0 0 none, Piece.mk false true 1 0 none])
        (Board.mk [Piece.mk false true 1 0 none, Piece.mk false true 0 0 none]) = true ∧
      boardStr (Board.mk [Piece.mk false true 0 0 none, Piece.mk false true 1 0 none]) =
        boardStr (Board.mk [Piece.mk false true 1 0 none, Piece.mk false true 0 0 none]) ∧
      hashKey (Board.mk [Piece.mk false true 0 0 none, Piece.mk false true 1 0 none]) =
        hashKey (Board.mk [Piece.mk false true 1 0 none, Piece.mk false true 0 0 none])) ∧
    (∀ b3 b4 : Board, b3.grid = b4.grid →
      boardEq b3 b4 = true ∧ hashKey b3 = hashKey b4) :=
  board_eq_of_perm
    (Board.mk [Piece.mk false true 0 0 none, Piece.mk false true 1 0 none])
    (Board.mk [Piece.mk false true 1 0 none, Piece.mk false true 0 0 none])
    (by decide) (by decide) (by decide)

/-! ## Reachability and parent chains -/

/-- The boards one move away from `b` (successor boards depend only on
the board, not on the wrapping state's bookkeeping). -/
def boardMoves (b : Board) : List Board :=
  (generate_successors (State.mk b 0 0 none)).map State.board

theorem gs_boards (s : State) :
    (generate_successors s).map State.board = boardMoves s.board := by
  unfold boardMoves generate_successors
  simp only [List.map_flatMap]
  apply flatMap_congr
  rintro ⟨i, p⟩ _
  dsimp only [State.board, State.depth]
  split_ifs <;> simp [new_board, State.board]

/-- `n`-step reachability through the generator's moves. -/
inductive ReachN : Board → Nat → Board → Prop where
  | refl (b : Board) : ReachN b 0 b
  | step {b c c' : Board} {n : Nat} :
      ReachN b n c → c' ∈ boardMoves c → ReachN b (n + 1) c'

/-- A goal board is reachable in exactly `n` moves. -/
def ReachBGoal (b : Board) (n : Nat) : Prop := ∃ g, ReachN b n g ∧ goalB g = true

/-- States created by repeated expansion from `init` (the only states the
searches ever hold). -/
inductive Lineage (init : State) : State → Prop where
  | root : Lineage init init
  | child {s t : State} : Lineage init s → t ∈ generate_successors s → Lineage init t

theorem lineage_reach {init t : State} (h : Lineage init t) :
    ∃ n, ReachN init.board n t.board := by
  induction h with
  | root => exact ⟨0, ReachN.refl _⟩
  | child hs hmem ih =>
    obtain ⟨n, hn⟩ := ih
    refine ⟨n + 1, ReachN.step hn ?_⟩
    rw [← gs_boards]
    exact List.mem_map_of_mem State.board hmem

theorem lineage_inv {init t : State} (hInv : Inv init.board) (h : Lineage init t) :
    Inv t.board := by
  induction h with
  | root => exact hInv
  | child hs hmem ih => exact inv_step ih hmem

theorem reachN_inv {b c : Board} {n : Nat} (hInv : Inv b) (h : ReachN b n c) : Inv c := by
  induction h with
  | refl => exact hInv
  | step hr hmem ih =>
    rename_i b' c' n'
    unfold boardMoves at hmem
    obtain ⟨t, htm, hteq⟩ := List.mem_map.mp hmem
    exact hteq ▸ inv_step (s := State.mk b' 0 0 none) (t := t) ih htm

/-- The ancestor walk of a lineage state: length, endpoints, and depth
accounting. -/
theorem lineage_ancestors {init : State} (hroot : init.parent = none) :
    ∀ {t : State}, Lineage init t →
      init.depth ≤ t.depth ∧
      (ancestors t).length = (t.depth - init.depth).toNat + 1 ∧
      (ancestors t).head? = some t.board ∧
      (ancestors t).getLast? = some init.board := by
  intro t h
  induction h with
  | root =>
    obtain ⟨b, f, d, par⟩ := init
    have : par = none := hroot
    subst this
    exact ⟨le_refl _, by simp [ancestors], rfl, rfl⟩
  | child hs hmem ih =>
    rename_i s t'
    obtain ⟨nb, rfl⟩ := mem_gs_shape hmem
    obtain ⟨hd, hlen, hhead, hlast⟩ := ih
    have hanc : ancestors (State.mk nb (manhattan nb + s.depth + 1) (s.depth + 1) (some s)) =
        nb :: ancestors s := rfl
    refine ⟨?_, ?_, ?_, ?_⟩
    · show init.depth ≤ s.depth + 1
      omega
    · rw [hanc]
      show (nb :: ancestors s).length = (s.depth + 1 - init.depth).toNat + 1
      rw [List.length_cons, hlen]
      omega
    · rfl
    · rw [hanc, List.getLast?_cons]
      rw [← hlast]
      cases hxa : ancestors s with
      | nil => rw [hxa] at hlast; cases hlast
      | cons a l => simp [List.getLast?_cons]

/-! ## DFS: soundness and termination -/

/-- What one pass of the dfs push loop does: it appends to both the
frontier and the explored list a sequence of distinct-grid successors. -/
theorem pushAll_decomp : ∀ (ss f : List State) (e : List Grid), ∃ ts : List State,
    (pushAll ss f e).1 = f ++ ts ∧
    (pushAll ss f e).2 = e ++ ts.map (fun t => t.board.grid) ∧
    (∀ t ∈ ts, t ∈ ss) ∧
    (e.Nodup → (e ++ ts.map (fun t => t.board.grid)).Nodup)
  | [], f, e => ⟨[], by simp [pushAll]⟩
  | s :: ss, f, e => by
    unfold pushAll
    split_ifs with hmem
    · obtain ⟨ts, h1, h2, h3, h4⟩ := pushAll_decomp ss f e
      exact ⟨ts, h1, h2, fun t ht => List.mem_cons_of_mem _ (h3 t ht), h4⟩
    · obtain ⟨ts, h1, h2, h3, h4⟩ := pushAll_decomp ss (f ++ [s]) (e ++ [s.board.grid])
      refine ⟨s :: ts, by simpa using h1, by simpa using h2,
        ?_, ?_⟩
      · rintro t ht
        rcases List.mem_cons.mp ht with rfl | ht
        · exact List.mem_cons_self _ _
        · exact List.mem_cons_of_mem _ (h3 t ht)
      · intro hnd
        have hnd' : (e ++ [s.board.grid]).Nodup := by
          rw [List.nodup_append]
          exact ⟨hnd, List.nodup_singleton _, by simpa using hmem⟩
        have := h4 hnd'
        simpa using this

/-- A dfs run that returns a state returns a goal state descended from
the initial state. -/
theorem dfsLoop_sound {init : State} :
    ∀ {n : Nat} {frontier : List State} {explored : List Grid} {t : State},
      (∀ s ∈ frontier, Lineage init s) →
      dfsLoop n frontier explored = some (some t) →
      Lineage init t ∧ goal_test t = true := by
  intro n
  induction n with
  | zero => intro _ _ _ _ h; cases h
  | succ n ih =>
    intro frontier explored t hl hrun
    unfold dfsLoop at hrun
    cases hcur : frontier.getLast? with
    | none => rw [hcur] at hrun; cases hrun
    | some curr =>
      rw [hcur] at hrun
      dsimp only at hrun
      have hcl : Lineage init curr := hl curr (List.mem_of_getLast?_eq_some hcur)
      by_cases hg : goal_test curr = true
      · rw [if_pos hg] at hrun
        cases hrun
        exact ⟨hcl, hg⟩
      · rw [if_neg hg] at hrun
        refine ih ?_ hrun
        obtain ⟨ts, h1, -, h3, -⟩ :=
          pushAll_decomp (generate_successors curr) frontier.dropLast explored
        rw [h1]
        intro s hs
        rcases List.mem_append.mp hs with hs | hs
        · exact hl s ((List.dropLast_sublist frontier).subset hs)
        · exact Lineage.child hcl (h3 s hs)

/-- More fuel never changes a finished dfs run. -/
theorem dfsLoop_mono :
    ∀ {n : Nat} {frontier explored r}, dfsLoop n frontier explored = some r →
      ∀ {m : Nat}, n ≤ m → dfsLoop m frontier explored = some r := by
  intro n
  induction n with
  | zero => intro _ _ _ h; cases h
  | succ n ih =>
    intro frontier explored r hrun m hm
    obtain ⟨m', rfl⟩ : ∃ m', m = m' + 1 := ⟨m - 1, by omega⟩
    unfold dfsLoop at hrun ⊢
    cases hcur : frontier.getLast? with
    | none => rw [hcur] at hrun; exact hrun
    | some curr =>
      rw [hcur] at hrun
      dsimp only at hrun ⊢
      by_cases hg : goal_test curr = true
      · rw [if_pos hg] at hrun ⊢
        exact hrun
      · rw [if_neg hg] at hrun ⊢
        exact ih hrun (by omega)

/-- Grids of boards: 5x4 with cells among the seven symbols the renderer
writes. -/
def symList : List Char := ['.', '1', '2', '<', '>', '^', 'v']

def ValidGrid (g : Grid) : Prop := GridShape g ∧ ∀ row ∈ g, ∀ ch ∈ row, ch ∈ symList

theorem validGrid_setCell {g : Grid} (hv : ValidGrid g) {c : Char} (hc : c ∈ symList)
    (y x : Int) : ValidGrid (setCell g y x c) := by
  refine ⟨shape_setCell hv.1 y x c, ?_⟩
  unfold setCell
  split
  · exact hv.2
  next yi hyi =>
    split
    · exact hv.2
    next xi hxi =>
      intro row hrow ch hch
      rcases List.mem_or_eq_of_mem_set hrow with hrow | rfl
      · exact hv.2 row hrow ch hch
      · rcases List.mem_or_eq_of_mem_set hch with hch | rfl
        · exact hv.2 _ (getD_row_mem (pyIdx_lt hyi)) ch hch
        · exact hc

theorem validGrid_writePiece {g : Grid} (hv : ValidGrid g) (p : Piece) :
    ValidGrid (writePiece g p) := by
  unfold writePiece
  split_ifs
  · exact validGrid_setCell (validGrid_setCell (validGrid_setCell (validGrid_setCell hv
      (by decide) _ _) (by decide) _ _) (by decide) _ _) (by decide) _ _
  · exact validGrid_setCell hv (by decide) _ _
  · exact validGrid_setCell (validGrid_setCell hv (by decide) _ _) (by decide) _ _
  · exact validGrid_setCell (validGrid_setCell hv (by decide) _ _) (by decide) _ _
  · exact hv

theorem validGrid_board (b : Board) : ValidGrid b.grid := by
  show ValidGrid (construct_grid b.pieces)
  unfold construct_grid
  generalize hg : initGrid = g0
  have hv0 : ValidGrid g0 := by
    rw [← hg]
    refine ⟨shape_initGrid, ?_⟩
    intro row hrow ch hch
    simp only [initGrid, List.mem_replicate] at hrow
    rw [hrow.2] at hch
    simp only [List.mem_replicate] at hch
    rw [hch.2]
    decide
  clear hg
  induction b.pieces generalizing g0 with
  | nil => exact hv0
  | cons p L ih => exact ih _ (validGrid_writePiece hv0 p)

/-- Valid grids embed injectively into a finite function space of
cardinality `7 ^ 20`. -/
def encodeGrid (g : Grid) : Fin 5 → Fin 4 → Fin 7 := fun i j =>
  ⟨(symList.indexOf (getCellN g i j)) % 7, Nat.mod_lt _ (by norm_num)⟩

theorem getCellN_mem_symList {g : Grid} (hv : ValidGrid g) {i j : Nat}
    (hi : i < 5) (hj : j < 4) : getCellN g i j ∈ symList := by
  have hil : i < g.length := by rw [hv.1.1]; exact hi
  have hjl : j < g[i].length := by rw [hv.1.2 _ (List.getElem_mem hil)]; exact hj
  rw [getCellN_eq_getElem hil hjl]
  exact hv.2 _ (List.getElem_mem hil) _ (List.getElem_mem hjl)

theorem encodeGrid_inj {g1 g2 : Grid} (h1 : ValidGrid g1) (h2 : ValidGrid g2)
    (h : encodeGrid g1 = encodeGrid g2) : g1 = g2 := by
  apply grid_ext h1.1 h2.1
  intro i j hi hj
  have hcell1 : getCellN g1 i j ∈ symList := getCellN_mem_symList h1 hi hj
  have hcell2 : getCellN g2 i j ∈ symList := getCellN_mem_symList h2 hi hj
  have he := congrFun (congrFun h ⟨i, hi⟩) ⟨j, hj⟩
  unfold encodeGrid at he
  have hlt1 : symList.indexOf (getCellN g1 i j) < 7 := by
    have := List.indexOf_lt_length.mpr hcell1
    simpa [symList] using this
  have hlt2 : symList.indexOf (getCellN g2 i j) < 7 := by
    have := List.indexOf_lt_length.mpr hcell2
    simpa [symList] using this
  rw [Fin.mk.injEq, Nat.mod_eq_of_lt hlt1, Nat.mod_eq_of_lt hlt2] at he
  exact (List.indexOf_inj hcell1 hcell2).mp he

theorem valid_nodup_length_le {E : List Grid} (hnd : E.Nodup)
    (hv : ∀ g ∈ E, ValidGrid g) : E.length ≤ 7 ^ 20 := by
  have hmap : (E.map encodeGrid).Nodup := by
    refine hnd.map_on ?_
    intro x hx y hy hxy
    exact encodeGrid_inj (hv x hx) (hv y hy) hxy
  have hcard := hmap.length_le_card
  rw [List.length_map] at hcard
  calc E.length ≤ Fintype.card (Fin 5 → Fin 4 → Fin 7) := hcard
    _ = 7 ^ 20 := by
      rw [Fintype.card_fun, Fintype.card_fun, Fintype.card_fin, Fintype.card_fin,
        Fintype.card_fin, ← pow_mul]

/-- The dfs loop finishes: every distinct grid is recorded at most once,
so at most `7 ^ 20` pushes ever happen, and a pass without pushes shrinks
the frontier. -/
theorem dfsLoop_term_aux : ∀ (K : Nat), ∀ (F : Nat), ∀ (frontier : List State)
    (explored : List Grid), explored.Nodup → (∀ g ∈ explored, ValidGrid g) →
    7 ^ 20 ≤ explored.length + K → frontier.length ≤ F →
    ∃ n, (dfsLoop n frontier explored).isSome := by
  intro K
  induction K using Nat.strong_induction_on with
  | _ K ihK =>
    intro F
    induction F with
    | zero =>
      intro frontier explored _ _ _ hF
      have : frontier = [] := List.eq_nil_of_length_eq_zero (by omega)
      subst this
      exact ⟨1, by simp [dfsLoop]⟩
    | succ F ihF =>
      intro frontier explored hnd hv hK hF
      cases hcur : frontier.getLast? with
      | none => exact ⟨1, by simp [dfsLoop, hcur]⟩
      | some curr =>
        have hfne : frontier ≠ [] := by
          intro h
          rw [h] at hcur
          cases hcur
        have hflen : 1 ≤ frontier.length := List.length_pos.mpr hfne
        by_cases hg : goal_test curr = true
        · refine ⟨1, ?_⟩
          unfold dfsLoop
          rw [hcur]
          dsimp only
          rw [if_pos hg]
          rfl
        · obtain ⟨ts, h1, h2, h3, h4⟩ :=
            pushAll_decomp (generate_successors curr) frontier.dropLast explored
          have hnd' : (pushAll (generate_successors curr) frontier.dropLast explored).2.Nodup := by
            rw [h2]
            exact h4 hnd
          have hv' : ∀ g ∈ (pushAll (generate_successors curr) frontier.dropLast explored).2,
              ValidGrid g := by
            rw [h2]
            intro g hg'
            rcases List.mem_append.mp hg' with hg' | hg'
            · exact hv g hg'
            · obtain ⟨t, -, rfl⟩ := List.mem_map.mp hg'
              exact validGrid_board _
          cases hts : ts with
          | nil =>
            have hf1 : (pushAll (generate_successors curr) frontier.dropLast explored).1 =
                frontier.dropLast := by rw [h1, hts, List.append_nil]
            have he2 : (pushAll (generate_successors curr) frontier.dropLast explored).2 =
                explored := by rw [h2, hts]; simp
            obtain ⟨n, hn⟩ := ihF
              (pushAll (generate_successors curr) frontier.dropLast explored).1
              (pushAll (generate_successors curr) frontier.dropLast explored).2
              hnd' hv' (by rw [he2]; omega)
              (by rw [hf1, List.length_dropLast]; omega)
            refine ⟨n + 1, ?_⟩
            unfold dfsLoop
            rw [hcur]
            dsimp only
            rw [if_neg hg]
            exact hn
          | cons t0 ts' =>
            have hlen2 : (pushAll (generate_successors curr) frontier.dropLast explored).2.length =
                explored.length + ts.length := by
              rw [h2, hts]
              simp
            have hbound := valid_nodup_length_le hnd' hv'
            have htspos : 1 ≤ ts.length := by rw [hts]; simp
            obtain ⟨n, hn⟩ := ihK (K - ts.length) (by omega)
              ((pushAll (generate_successors curr) frontier.dropLast explored).1.length)
              (pushAll (generate_successors curr) frontier.dropLast explored).1
              (pushAll (generate_successors curr) frontier.dropLast explored).2
              hnd' hv' (by omega) le_rfl
            refine ⟨n + 1, ?_⟩
            unfold dfsLoop
            rw [hcur]
            dsimp only
            rw [if_neg hg]
            exact hn

/-- `dfs` always terminates: some fuel makes the loop finish. -/
theorem dfs_term (init : State) : ∃ n, (dfs n init).isSome := by
  unfold dfs
  exact dfsLoop_term_aux (7 ^ 20) 1 [init] [] (List.nodup_nil) (by simp)
    (by omega) (by simp)

/-! ## A*: frontier and explored-map lemmas -/

theorem popMin_eq_none_iff {l : List State} : popMin l = none ↔ l = [] := by
  cases l with
  | nil => simp [popMin]
  | cons s rest =>
    simp only [popMin]
    cases popMin rest with
    | none => simp
    | some mr =>
      obtain ⟨m, r⟩ := mr
      dsimp only
      split_ifs <;> simp

theorem popMin_spec : ∀ {l : List State} {m : State} {rest : List State},
    popMin l = some (m, rest) →
    m ∈ l ∧ (m :: rest).Perm l ∧ (∀ s ∈ l, m.f ≤ s.f) ∧ rest.length + 1 = l.length := by
  intro l
  induction l with
  | nil => intro m rest h; cases h
  | cons s l ih =>
    intro m rest h
    unfold popMin at h
    cases hpl : popMin l with
    | none =>
      have hle : l = [] := popMin_eq_none_iff.mp hpl
      subst hle
      rw [hpl] at h
      dsimp only at h
      cases h
      refine ⟨List.mem_cons_self _ _, List.Perm.refl _, ?_, rfl⟩
      rintro x hx
      rcases List.mem_cons.mp hx with rfl | hx
      · exact le_refl _
      · cases hx
    | some mr =>
      obtain ⟨m', r'⟩ := mr
      obtain ⟨hm'm, hm'p, hm'min, hm'len⟩ := ih hpl
      rw [hpl] at h
      dsimp only at h
      split_ifs at h with hlt
      · cases h
        refine ⟨List.mem_cons_of_mem _ hm'm, ?_, ?_, ?_⟩
        · exact List.Perm.trans (List.Perm.swap _ _ _) (List.Perm.cons _ hm'p)
        · rintro x hx
          rcases List.mem_cons.mp hx with rfl | hx
          · exact le_of_lt hlt
          · exact hm'min x hx
        · simp only [List.length_cons]
          omega
      · cases h
        refine ⟨List.mem_cons_self _ _, List.Perm.refl _, ?_, rfl⟩
        rintro x hx
        rcases List.mem_cons.mp hx with rfl | hx
        · exact le_refl _
        · exact le_trans (not_lt.mp hlt) (hm'min x hx)

def expKeys (e : List (String × State)) : List String := e.map Prod.fst

theorem lookupExp_eq_none_iff : ∀ {e : List (String × State)} {k : String},
    lookupExp e k = none ↔ k ∉ expKeys e := by
  intro e
  induction e with
  | nil => simp [lookupExp, expKeys]
  | cons kv e ih =>
    intro k
    obtain ⟨k', v'⟩ := kv
    unfold lookupExp
    split_ifs with hk
    · subst hk
      simp [expKeys]
    · rw [ih]
      simp only [expKeys, List.map_cons, List.mem_cons]
      constructor
      · rintro h (rfl | hh)
        · exact hk rfl
        · exact h hh
      · intro h hh
        exact h (Or.inr hh)

theorem insertExp_of_not_mem : ∀ {e : List (String × State)} {k : String} (v : State),
    k ∉ expKeys e → insertExp e k v = e ++ [(k, v)] := by
  intro e
  induction e with
  | nil => intro k v _; rfl
  | cons kv e ih =>
    intro k v hk
    obtain ⟨k', v'⟩ := kv
    simp only [expKeys, List.map_cons, List.mem_cons, not_or] at hk
    unfold insertExp
    rw [if_neg (fun h => hk.1 h.symm), ih v hk.2]
    rfl

theorem mem_insertExp : ∀ {e : List (String × State)} {k : String} {v : State} {kv},
    kv ∈ insertExp e k v → kv ∈ e ∨ kv = (k, v) := by
  intro e
  induction e with
  | nil =>
    intro k v kv h
    simp only [insertExp, List.mem_singleton] at h
    exact Or.inr h
  | cons kv' e ih =>
    intro k v kv h
    obtain ⟨k', v'⟩ := kv'
    unfold insertExp at h
    split_ifs at h with hk
    · rcases List.mem_cons.mp h with rfl | h
      · exact Or.inr rfl
      · exact Or.inl (List.mem_cons_of_mem _ h)
    · rcases List.mem_cons.mp h with rfl | h
      · exact Or.inl (List.mem_cons_self _ _)
      · rcases ih h with h | h
        · exact Or.inl (List.mem_cons_of_mem _ h)
        · exact Or.inr h

theorem expKeys_insertExp_of_mem : ∀ {e : List (String × State)} {k : String} (v : State),
    k ∈ expKeys e → expKeys (insertExp e k v) = expKeys e := by
  intro e
  induction e with
  | nil => intro k v h; cases h
  | cons kv e ih =>
    intro k v hk
    obtain ⟨k', v'⟩ := kv
    unfold insertExp
    split_ifs with h
    · subst h
      rfl
    · simp only [expKeys, List.map_cons] at hk ⊢
      rcases List.mem_cons.mp hk with rfl | hk
      · exact absurd rfl h
      · have hih := ih v hk
        simp only [expKeys] at hih
        rw [hih]

theorem length_insertExp_of_mem : ∀ {e : List (String × State)} {k : String} (v : State),
    k ∈ expKeys e → (insertExp e k v).length = e.length := by
  intro e
  induction e with
  | nil => intro k v h; cases h
  | cons kv e ih =>
    intro k v hk
    obtain ⟨k', v'⟩ := kv
    unfold insertExp
    split_ifs with h
    · rfl
    · simp only [expKeys, List.map_cons, List.mem_cons] at hk
      rcases hk with rfl | hk
      · exact absurd rfl h
      · simp only [List.length_cons, ih v hk]

def sumF (e : List (String × State)) : Nat := (e.map (fun kv => kv.2.f.toNat)).sum

theorem sumF_insert_replace : ∀ {e : List (String × State)} {k : String} {v old : State},
    lookupExp e k = some old →
    sumF (insertExp e k v) + old.f.toNat = sumF e + v.f.toNat := by
  intro e
  induction e with
  | nil => intro k v old h; cases h
  | cons kv e ih =>
    intro k v old h
    obtain ⟨k', v'⟩ := kv
    unfold lookupExp at h
    unfold insertExp
    split_ifs at h ⊢ with hk
    · cases h
      simp only [sumF, List.map_cons, List.sum_cons]
      omega
    · simp only [sumF, List.map_cons, List.sum_cons]
      have := ih (v := v) h
      simp only [sumF] at this
      omega

theorem lookupExp_mem : ∀ {e : List (String × State)} {k : String} {v : State},
    lookupExp e k = some v → (k, v) ∈ e := by
  intro e
  induction e with
  | nil => intro k v h; cases h
  | cons kv e ih =>
    intro k v h
    obtain ⟨k', v'⟩ := kv
    unfold lookupExp at h
    split_ifs at h with hk
    · cases h
      subst hk
      exact List.mem_cons_self _ _
    · exact List.mem_cons_of_mem _ (ih h)

theorem key_mem_of_lookup {e : List (String × State)} {k : String} {v : State}
    (h : lookupExp e k = some v) : k ∈ expKeys e :=
  List.mem_map_of_mem Prod.fst (lookupExp_mem h)

/-- Decomposition of the inner relaxation pass: the frontier only grows at
the tail by successors; explored keys stay nodup; the explored map only
gains entries built from successors; and a termination measure fact:
if the map size is unchanged then `sumF` did not grow, and if `sumF` is
also unchanged then nothing happened at all. -/
theorem relaxAll_decomp : ∀ (ss f : List State) (e : List (String × State)),
    (expKeys e).Nodup → (∀ t ∈ ss, 0 ≤ t.f) →
    ∃ ts : List State,
      (relaxAll ss f e).1 = f ++ ts ∧ (∀ t ∈ ts, t ∈ ss) ∧
      (expKeys (relaxAll ss f e).2).Nodup ∧
      e.length ≤ (relaxAll ss f e).2.length ∧
      (∀ kv ∈ (relaxAll ss f e).2, kv ∈ e ∨ ∃ t ∈ ss, kv = (boardKey t.board, t)) ∧
      ((relaxAll ss f e).2.length = e.length →
        sumF (relaxAll ss f e).2 ≤ sumF e ∧
        (sumF (relaxAll ss f e).2 = sumF e →
          (relaxAll ss f e).1 = f ∧ (relaxAll ss f e).2 = e)) := by
  intro ss
  induction ss with
  | nil =>
    intro f e hnd _
    exact ⟨[], by simp [relaxAll], by simp, hnd, le_refl _,
      fun kv hkv => Or.inl hkv, fun _ => ⟨le_refl _, fun _ => ⟨by simp [relaxAll], rfl⟩⟩⟩
  | cons s ss ih =>
    intro f e hnd hnn
    have hnn' : ∀ t ∈ ss, 0 ≤ t.f := fun t ht => hnn t (List.mem_cons_of_mem _ ht)
    have hs0 : 0 ≤ s.f := hnn s (List.mem_cons_self _ _)
    unfold relaxAll
    dsimp only
    cases hlk : lookupExp e (boardKey s.board) with
    | none =>
      dsimp only
      have hkn : boardKey s.board ∉ expKeys e := lookupExp_eq_none_iff.mp hlk
      have hins : insertExp e (boardKey s.board) s = e ++ [(boardKey s.board, s)] :=
        insertExp_of_not_mem s hkn
      have hnd1 : (expKeys (insertExp e (boardKey s.board) s)).Nodup := by
        rw [hins]
        simp only [expKeys, List.map_append, List.map_cons, List.map_nil]
        rw [List.nodup_append]
        exact ⟨hnd, List.nodup_singleton _, by
          intro x hx
          simp only [List.mem_singleton]
          intro hxk
          subst hxk
          exact hkn hx⟩
      have hlen1 : (insertExp e (boardKey s.board) s).length = e.length + 1 := by
        rw [hins, List.length_append, List.length_singleton]
      obtain ⟨ts, h1, h2, h3, h4, h5, _⟩ :=
        ih (f ++ [s]) (insertExp e (boardKey s.board) s) hnd1 hnn'
      refine ⟨s :: ts, ?_, ?_, h3, by omega, ?_, ?_⟩
      · rw [h1, List.append_assoc, List.singleton_append]
      · rintro t ht
        rcases List.mem_cons.mp ht with rfl | ht
        · exact List.mem_cons_self _ _
        · exact List.mem_cons_of_mem _ (h2 t ht)
      · intro kv hkv
        rcases h5 kv hkv with hkv | ⟨t, ht, rfl⟩
        · rcases mem_insertExp hkv with hkv | rfl
          · exact Or.inl hkv
          · exact Or.inr ⟨s, List.mem_cons_self _ _, rfl⟩
        · exact Or.inr ⟨t, List.mem_cons_of_mem _ ht, rfl⟩
      · intro hlen
        omega
    | some old =>
      dsimp only
      have hkm : boardKey s.board ∈ expKeys e := key_mem_of_lookup hlk
      split_ifs with hlt
      · have hnd1 : (expKeys (insertExp e (boardKey s.board) s)).Nodup := by
          rw [expKeys_insertExp_of_mem s hkm]
          exact hnd
        have hlen1 : (insertExp e (boardKey s.board) s).length = e.length :=
          length_insertExp_of_mem s hkm
        have hsum1 : sumF (insertExp e (boardKey s.board) s) + old.f.toNat
            = sumF e + s.f.toNat := sumF_insert_replace hlk
        have hstrict : sumF (insertExp e (boardKey s.board) s) < sumF e := by
          have h0 : (0 : Int) ≤ s.f := hs0
          have ht : s.f.toNat < old.f.toNat := by omega
          omega
        obtain ⟨ts, h1, h2, h3, h4, h5, h6⟩ :=
          ih (f ++ [s]) (insertExp e (boardKey s.board) s) hnd1 hnn'
        refine ⟨s :: ts, ?_, ?_, h3, by omega, ?_, ?_⟩
        · rw [h1, List.append_assoc, List.singleton_append]
        · rintro t ht
          rcases List.mem_cons.mp ht with rfl | ht
          · exact List.mem_cons_self _ _
          · exact List.mem_cons_of_mem _ (h2 t ht)
        · intro kv hkv
          rcases h5 kv hkv with hkv | ⟨t, ht, rfl⟩
          · rcases mem_insertExp hkv with hkv | rfl
            · exact Or.inl hkv
            · exact Or.inr ⟨s, List.mem_cons_self _ _, rfl⟩
          · exact Or.inr ⟨t, List.mem_cons_of_mem _ ht, rfl⟩
        · intro hlen
          have hle2 := (h6 (by omega)).1
          constructor
          · omega
          · intro heq
            omega
      · obtain ⟨ts, h1, h2, h3, h4, h5, h6⟩ := ih f e hnd hnn'
        refine ⟨ts, h1, fun t ht => List.mem_cons_of_mem _ (h2 t ht), h3, h4, ?_, h6⟩
        intro kv hkv
        rcases h5 kv hkv with hkv | ⟨t, ht, rfl⟩
        · exact Or.inl hkv
        · exact Or.inr ⟨t, List.mem_cons_of_mem _ ht, rfl⟩

theorem relaxAll_fst_mem : ∀ (ss f : List State) (e : List (String × State)) {s : State},
    s ∈ (relaxAll ss f e).1 → s ∈ f ∨ s ∈ ss := by
  intro ss
  induction ss with
  | nil =>
    intro f e s hs
    exact Or.inl hs
  | cons x ss ih =>
    intro f e s hs
    unfold relaxAll at hs
    dsimp only at hs
    have step : ∀ {e' : List (String × State)},
        s ∈ (relaxAll ss (f ++ [x]) e').1 → s ∈ f ∨ s ∈ x :: ss := by
      intro e' h
      rcases ih _ _ h with h | h
      · rcases List.mem_append.mp h with h | h
        · exact Or.inl h
        · rw [List.mem_singleton] at h
          exact Or.inr (h ▸ List.mem_cons_self _ _)
      · exact Or.inr (List.mem_cons_of_mem _ h)
    cases hlk : lookupExp e (boardKey x.board) with
    | none =>
      rw [hlk] at hs
      exact step hs
    | some old =>
      rw [hlk] at hs
      dsimp only at hs
      split_ifs at hs with hlt
      · exact step hs
      · rcases ih _ _ hs with h | h
        · exact Or.inl h
        · exact Or.inr (List.mem_cons_of_mem _ h)

theorem manhattan_nonneg (b : Board) : 0 ≤ manhattan b := by
  unfold manhattan
  cases get_goal b with
  | none => exact le_refl _
  | some g => positivity

theorem boardKey_congr {b c : Board} (h : b.grid = c.grid) :
    boardKey b = boardKey c := by
  unfold boardKey boardStr
  rw [h]

/-- An explored map whose keys are nodup and are the board keys of its own
states has at most `7 ^ 20` entries: distinct keys force distinct grids. -/
theorem exp_length_le {e : List (String × State)}
    (hnd : (expKeys e).Nodup)
    (hki : ∀ kv ∈ e, kv.1 = boardKey kv.2.board) : e.length ≤ 7 ^ 20 := by
  have hpk : List.Pairwise (fun kv kv' : String × State => kv.1 ≠ kv'.1) e := by
    have := hnd
    unfold expKeys at this
    rw [List.Nodup, List.pairwise_map] at this
    exact this
  have hmap : (e.map (fun kv : String × State => kv.2.board.grid)).Nodup := by
    rw [List.Nodup, List.pairwise_map]
    refine List.Pairwise.imp_of_mem ?_ hpk
    intro kv kv' hm hm' hne heq
    exact hne ((hki kv hm).trans ((boardKey_congr heq).trans (hki kv' hm').symm))
  have hle := valid_nodup_length_le hmap (by
    intro g hg
    obtain ⟨kv, -, rfl⟩ := List.mem_map.mp hg
    exact validGrid_board _)
  rw [List.length_map] at hle
  exact hle

/-- Termination of the A* loop: enough fuel exists, by a three-level
measure (slack on the explored-map size bounded by `7 ^ 20`, then the sum
of the recorded `f` values, then the frontier length). -/
theorem astarLoop_term_aux : ∀ (K1 : Nat), ∀ (K2 : Nat), ∀ (K3 : Nat),
    ∀ (frontier : List State) (explored : List (String × State)),
    (expKeys explored).Nodup →
    (∀ kv ∈ explored, kv.1 = boardKey kv.2.board) →
    (∀ s ∈ frontier, 0 ≤ s.depth) →
    7 ^ 20 ≤ explored.length + K1 → sumF explored ≤ K2 → frontier.length ≤ K3 →
    ∃ n, (astarLoop n frontier explored).isSome := by
  intro K1
  induction K1 using Nat.strong_induction_on with
  | _ K1 ihK1 =>
    intro K2
    induction K2 using Nat.strong_induction_on with
    | _ K2 ihK2 =>
      intro K3
      induction K3 with
      | zero =>
        intro frontier explored _ _ _ _ _ hK3
        have : frontier = [] := List.eq_nil_of_length_eq_zero (by omega)
        subst this
        exact ⟨1, by simp [astarLoop, popMin]⟩
      | succ K3 ihK3 =>
        intro frontier explored hnd hki hdep hK1 hK2 hK3
        cases hpm : popMin frontier with
        | none =>
          exact ⟨1, by simp [astarLoop, hpm]⟩
        | some cr =>
          obtain ⟨curr, rest⟩ := cr
          obtain ⟨hcm, hperm, hmin, hrlen⟩ := popMin_spec hpm
          by_cases hg : goal_test curr = true
          · refine ⟨1, ?_⟩
            unfold astarLoop
            rw [hpm]
            dsimp only
            rw [if_pos hg]
            rfl
          · have hcd : 0 ≤ curr.depth := hdep curr hcm
            have hss : ∀ t ∈ generate_successors curr, 0 ≤ t.f := by
              intro t ht
              obtain ⟨nb, rfl⟩ := mem_gs_shape ht
              have := manhattan_nonneg nb
              simp only [State.f]
              omega
            obtain ⟨ts, h1, h2, h3, h4, h5, h6⟩ :=
              relaxAll_decomp (generate_successors curr) rest explored hnd hss
            have hki' : ∀ kv ∈ (relaxAll (generate_successors curr) rest explored).2,
                kv.1 = boardKey kv.2.board := by
              intro kv hkv
              rcases h5 kv hkv with hkv | ⟨t, -, rfl⟩
              · exact hki kv hkv
              · rfl
            have hdep' : ∀ s ∈ (relaxAll (generate_successors curr) rest explored).1,
                0 ≤ s.depth := by
              rw [h1]
              intro s hs
              rcases List.mem_append.mp hs with hs | hs
              · exact hdep s (hperm.subset (List.mem_cons_of_mem _ hs))
              · obtain ⟨nb, rfl⟩ := mem_gs_shape (h2 s hs)
                show 0 ≤ curr.depth + 1
                omega
            have hbnd := exp_length_le h3 hki'
            by_cases hlen2 : (relaxAll (generate_successors curr) rest explored).2.length
                = explored.length
            · obtain ⟨hsle, hseq⟩ := h6 hlen2
              by_cases hsum : sumF (relaxAll (generate_successors curr) rest explored).2
                  = sumF explored
              · obtain ⟨hf1, -⟩ := hseq hsum
                obtain ⟨n, hn⟩ := ihK3
                  (relaxAll (generate_successors curr) rest explored).1
                  (relaxAll (generate_successors curr) rest explored).2
                  h3 hki' hdep' (by omega) (by omega)
                  (by rw [hf1]; omega)
                refine ⟨n + 1, ?_⟩
                unfold astarLoop
                rw [hpm]
                dsimp only
                rw [if_neg hg]
                exact hn
              · obtain ⟨n, hn⟩ := ihK2
                  (sumF (relaxAll (generate_successors curr) rest explored).2)
                  (by omega)
                  ((relaxAll (generate_successors curr) rest explored).1.length)
                  (relaxAll (generate_successors curr) rest explored).1
                  (relaxAll (generate_successors curr) rest explored).2
                  h3 hki' hdep' (by omega) le_rfl le_rfl
                refine ⟨n + 1, ?_⟩
                unfold astarLoop
                rw [hpm]
                dsimp only
                rw [if_neg hg]
                exact hn
            · obtain ⟨n, hn⟩ := ihK1
                (K1 - ((relaxAll (generate_successors curr) rest explored).2.length
                  - explored.length))
                (by omega)
                (sumF (relaxAll (generate_successors curr) rest explored).2)
                ((relaxAll (generate_successors curr) rest explored).1.length)
                (relaxAll (generate_successors curr) rest explored).1
                (relaxAll (generate_successors curr) rest explored).2
                h3 hki' hdep' (by omega) le_rfl le_rfl
              refine ⟨n + 1, ?_⟩
              unfold astarLoop
              rw [hpm]
              dsimp only
              rw [if_neg hg]
              exact hn

/-- `astar` always terminates on states with nonnegative depth. -/
theorem astar_term (init : State) (hd : 0 ≤ init.depth) :
    ∃ n, (astar n init).isSome := by
  unfold astar
  refine astarLoop_term_aux (7 ^ 20) (sumF [(boardKey init.board, init)]) 1
    [init] [(boardKey init.board, init)] ?_ ?_ ?_ ?_ le_rfl (by simp)
  · simp [expKeys]
  · intro kv hkv
    rw [List.mem_singleton] at hkv
    subst hkv
    rfl
  · intro s hs
    rw [List.mem_singleton] at hs
    subst hs
    exact hd
  · rw [List.length_singleton]
    omega

/-- Soundness of the A* loop: a returned state is a goal state reached by
a parent chain from the initial state. -/
theorem astarLoop_sound {init : State} :
    ∀ {n : Nat} {frontier : List State} {explored : List (String × State)} {t : State},
      (∀ s ∈ frontier, Lineage init s) →
      astarLoop n frontier explored = some (some t) →
      Lineage init t ∧ goal_test t = true := by
  intro n
  induction n with
  | zero => intro _ _ _ _ h; cases h
  | succ n ih =>
    intro frontier explored t hl hrun
    unfold astarLoop at hrun
    cases hpm : popMin frontier with
    | none => rw [hpm] at hrun; cases hrun
    | some cr =>
      obtain ⟨curr, rest⟩ := cr
      rw [hpm] at hrun
      dsimp only at hrun
      obtain ⟨hcm, hperm, -, -⟩ := popMin_spec hpm
      have hcl : Lineage init curr := hl curr hcm
      by_cases hg : goal_test curr = true
      · rw [if_pos hg] at hrun
        cases hrun
        exact ⟨hcl, hg⟩
      · rw [if_neg hg] at hrun
        refine ih ?_ hrun
        intro s hs
        rcases relaxAll_fst_mem (generate_successors curr) rest explored hs with hs | hs
        · exact hl s (hperm.subset (List.mem_cons_of_mem _ hs))
        · exact Lineage.child hcl hs

/-- More fuel never changes a finished astar run. -/
theorem astarLoop_mono :
    ∀ {n : Nat} {frontier explored r}, astarLoop n frontier explored = some r →
      ∀ {m : Nat}, n ≤ m → astarLoop m frontier explored = some r := by
  intro n
  induction n with
  | zero => intro _ _ _ h; cases h
  | succ n ih =>
    intro frontier explored r hrun m hm
    obtain ⟨m', rfl⟩ : ∃ m', m = m' + 1 := ⟨m - 1, by omega⟩
    unfold astarLoop at hrun ⊢
    cases hpm : popMin frontier with
    | none => rw [hpm] at hrun; exact hrun
    | some cr =>
      obtain ⟨curr, rest⟩ := cr
      rw [hpm] at hrun
      dsimp only at hrun ⊢
      by_cases hg : goal_test curr = true
      · rw [if_pos hg] at hrun ⊢
        exact hrun
      · rw [if_neg hg] at hrun ⊢
        exact ih hrun (by omega)

/-! ## Claim C9: termination of both searches -/

/-- C9 — Termination: for every initial state with depth `0` (as the
solver constructs it) over an invariant-satisfying board, some fuel value
makes both `dfs` and `astar` finish: each search either returns a state
or exhausts its frontier after finitely many iterations, because dfs adds
each distinct rendered grid to its explored list at most once and astar
re-records a board's state only with a strictly lower nonnegative `f`. -/
theorem search_termination (init : State) (_h : Inv init.board)
    (hd : init.depth = 0) :
    ∃ n, (dfs n init).isSome ∧ (astar n init).isSome := by
  obtain ⟨n1, h1⟩ := dfs_term init
  obtain ⟨n2, h2⟩ := astar_term init (by rw [hd])
  obtain ⟨r1, hr1⟩ := Option.isSome_iff_exists.mp h1
  obtain ⟨r2, hr2⟩ := Option.isSome_iff_exists.mp h2
  refine ⟨max n1 n2, ?_, ?_⟩
  · unfold dfs at hr1 ⊢
    rw [dfsLoop_mono hr1 (le_max_left _ _)]
    rfl
  · unfold astar at hr2 ⊢
    rw [astarLoop_mono hr2 (le_max_right _ _)]
    rfl

/-- Witness for C9 at a concrete solved one-piece board. -/
theorem search_termination_witness :
    Inv (State.mk (Board.mk [Piece.mk true false 1 3 none]) 0 0 none).board ∧
    (State.mk (Board.mk [Piece.mk true false 1 3 none]) 0 0 none).depth = 0 ∧
    ∃ n, (dfs n (State.mk (Board.mk [Piece.mk true false 1 3 none]) 0 0 none)).isSome ∧
      (astar n (State.mk (Board.mk [Piece.mk true false 1 3 none]) 0 0 none)).isSome :=
  ⟨by decide, rfl, search_termination _ (by decide) rfl⟩

/-! ## Claim C10: parent chains and path reconstruction -/

theorem lineage_depth_reach {init : State} :
    ∀ {t : State}, Lineage init t →
      init.depth ≤ t.depth ∧
      ReachN init.board (t.depth - init.depth).toNat t.board := by
  intro t h
  induction h with
  | root =>
    refine ⟨le_refl _, ?_⟩
    rw [sub_self]
    exact ReachN.refl _
  | child hs hmem ih =>
    rename_i s t'
    obtain ⟨hle, hr⟩ := ih
    obtain ⟨nb, rfl⟩ := mem_gs_shape hmem
    refine ⟨?_, ?_⟩
    · show init.depth ≤ s.depth + 1
      omega
    · have hto : ((State.mk nb (manhattan nb + s.depth + 1) (s.depth + 1)
          (some s)).depth - init.depth).toNat = (s.depth - init.depth).toNat + 1 := by
        show (s.depth + 1 - init.depth).toNat = (s.depth - init.depth).toNat + 1
        omega
      rw [hto]
      refine ReachN.step hr ?_
      rw [← gs_boards]
      exact List.mem_map_of_mem State.board hmem

/-- C10 — Parent-chain invariant and path reconstruction: every terminal
state returned by either search descends from the initial state through
single generate_successors links, its board is reachable in exactly its
depth moves, and `get_solution` writes exactly `depth + 1` grids,
starting with the initial board's grid and ending with the terminal
board's grid, reporting `depth + 1` as the count. -/
theorem path_reconstruction (init t : State) (hroot : init.parent = none)
    (hd0 : init.depth = 0)
    (h : (∃ n, dfs n init = some (some t)) ∨ (∃ n, astar n init = some (some t))) :
    Lineage init t ∧ ReachN init.board t.depth.toNat t.board ∧
    (get_solution (some t)).2 = t.depth.toNat + 1 ∧
    (get_solution (some t)).1.length = t.depth.toNat + 1 ∧
    (get_solution (some t)).1.head? = some init.board.grid ∧
    (get_solution (some t)).1.getLast? = some t.board.grid := by
  have hfr : ∀ s ∈ [init], Lineage init s := by
    intro s hs
    rw [List.mem_singleton] at hs
    subst hs
    exact Lineage.root
  have hlin : Lineage init t := by
    rcases h with ⟨n, hn⟩ | ⟨n, hn⟩
    · unfold dfs at hn
      exact (dfsLoop_sound hfr hn).1
    · unfold astar at hn
      exact (astarLoop_sound hfr hn).1
  obtain ⟨hle, hreach⟩ := lineage_depth_reach hlin
  obtain ⟨-, hlen, hhead, hlast⟩ := lineage_ancestors hroot hlin
  rw [hd0, sub_zero] at hreach
  rw [hd0, sub_zero] at hlen
  refine ⟨hlin, hreach, ?_, ?_, ?_, ?_⟩
  · show (ancestors t).length = t.depth.toNat + 1
    exact hlen
  · show ((ancestors t).reverse.map Board.grid).length = t.depth.toNat + 1
    rw [List.length_map, List.length_reverse]
    exact hlen
  · show ((ancestors t).reverse.map Board.grid).head? = some init.board.grid
    rw [List.head?_map, List.head?_reverse, hlast]
    rfl
  · show ((ancestors t).reverse.map Board.grid).getLast? = some t.board.grid
    rw [List.getLast?_map, List.getLast?_reverse, hhead]
    rfl

def solvedInit : State := State.mk (Board.mk [Piece.mk true false 1 3 none]) 0 0 none

/-- Witness for C10: dfs returns the already-solved board immediately. -/
theorem path_reconstruction_witness :
    Lineage solvedInit solvedInit ∧
    ReachN solvedInit.board solvedInit.depth.toNat solvedInit.board ∧
    (get_solution (some solvedInit)).2 = solvedInit.depth.toNat + 1 ∧
    (get_solution (some solvedInit)).1.length = solvedInit.depth.toNat + 1 ∧
    (get_solution (some solvedInit)).1.head? = some solvedInit.board.grid ∧
    (get_solution (some solvedInit)).1.getLast? = some solvedInit.board.grid :=
  path_reconstruction solvedInit solvedInit rfl rfl (Or.inl ⟨1, rfl⟩)

/-! ## Claim C8: no-solution behavior -/

/-- A board with no legal moves reaches only itself. -/
theorem stuck_reach {b : Board} (hb : boardMoves b = []) :
    ∀ {n : Nat} {c : Board}, ReachN b n c → c = b := by
  intro n c h
  induction h with
  | refl => rfl
  | step hprev hmem ih =>
    rw [ih, hb] at hmem
    cases hmem

theorem emptyBoard_no_goal (n : Nat) : ¬ ReachBGoal (Board.mk []) n := by
  rintro ⟨g, hr, hg⟩
  rw [stuck_reach (show boardMoves (Board.mk []) = [] from rfl) hr] at hg
  exact absurd hg (by decide)

/-- C8 — No-solution behavior: when no goal state is reachable from the
initial board through the move generator, both searches exhaust their
frontiers and return the absent result (rather than raising), and the
path reconstructor applied to the absent result writes no grids and
reports a count of `0`. -/
theorem no_solution_behavior (init : State) (hd : init.depth = 0)
    (hnog : ∀ n, ¬ ReachBGoal init.board n) :
    (∃ n, dfs n init = some none ∧ astar n init = some none) ∧
    get_solution none = ([], 0) := by
  refine ⟨?_, rfl⟩
  obtain ⟨n1, h1⟩ := dfs_term init
  obtain ⟨n2, h2⟩ := astar_term init (by rw [hd])
  obtain ⟨r1, hr1⟩ := Option.isSome_iff_exists.mp h1
  obtain ⟨r2, hr2⟩ := Option.isSome_iff_exists.mp h2
  have hfr : ∀ s ∈ [init], Lineage init s := by
    intro s hs
    rw [List.mem_singleton] at hs
    subst hs
    exact Lineage.root
  have hr1n : r1 = none := by
    cases r1 with
    | none => rfl
    | some t =>
      unfold dfs at hr1
      obtain ⟨hlin, hgoal⟩ := dfsLoop_sound hfr hr1
      obtain ⟨m, hm⟩ := lineage_reach hlin
      exact absurd ⟨t.board, hm, hgoal⟩ (hnog m)
  have hr2n : r2 = none := by
    cases r2 with
    | none => rfl
    | some t =>
      unfold astar at hr2
      obtain ⟨hlin, hgoal⟩ := astarLoop_sound hfr hr2
      obtain ⟨m, hm⟩ := lineage_reach hlin
      exact absurd ⟨t.board, hm, hgoal⟩ (hnog m)
  rw [hr1n] at hr1
  rw [hr2n] at hr2
  refine ⟨max n1 n2, ?_, ?_⟩
  · unfold dfs at hr1 ⊢
    exact dfsLoop_mono hr1 (le_max_left _ _)
  · unfold astar at hr2 ⊢
    exact astarLoop_mono hr2 (le_max_right _ _)

/-! ## Toward C2: reachability plumbing -/

theorem reachN_zero {b c : Board} (h : ReachN b 0 c) : c = b := by
  cases h
  rfl

theorem reachN_peel {b g : Board} {n : Nat} (h : ReachN b (n + 1) g) :
    ∃ c ∈ boardMoves b, ReachN c n g := by
  induction n generalizing g with
  | zero =>
    cases h with
    | step hprev hmem =>
      rw [reachN_zero hprev] at hmem
      exact ⟨g, hmem, ReachN.refl g⟩
  | succ n ih =>
    cases h with
    | step hprev hmem =>
      obtain ⟨c, hc, hcr⟩ := ih hprev
      exact ⟨c, hc, ReachN.step hcr hmem⟩

theorem reachN_cons {b c g : Board} {n : Nat} (hc : c ∈ boardMoves b)
    (h : ReachN c n g) : ReachN b (n + 1) g := by
  induction h with
  | refl => exact ReachN.step (ReachN.refl b) hc
  | step hprev hmem ih => exact ReachN.step ih hmem

theorem inv_move {b c : Board} (hc : c ∈ boardMoves b) (h : Inv b) : Inv c := by
  unfold boardMoves at hc
  obtain ⟨t, ht, rfl⟩ := List.mem_map.mp hc
  exact inv_step (s := State.mk b 0 0 none) h ht

/-- Membership form of the board-level move relation. -/
theorem mem_boardMoves_iff {b : Board} (hwf : ∀ p ∈ b.pieces, WfPiece p) (c : Board) :
    c ∈ boardMoves b ↔ ∃ i p d, b.pieces[i]? = some p ∧ allowed b p d = true ∧
      c = new_board b.pieces (movedPiece p d) i := by
  unfold boardMoves
  simp only [List.mem_map]
  constructor
  · rintro ⟨t, ht, rfl⟩
    obtain ⟨i, p, d, hip, hall, rfl⟩ :=
      (mem_gs_iff (s := State.mk b 0 0 none) hwf t).mp ht
    exact ⟨i, p, d, hip, hall, rfl⟩
  · rintro ⟨i, p, d, hip, hall, rfl⟩
    exact ⟨mkMove (State.mk b 0 0 none) i p d,
      (mem_gs_iff (s := State.mk b 0 0 none) hwf _).mpr ⟨i, p, d, hip, hall, rfl⟩, rfl⟩

theorem perm_cons_eraseIdx {α : Type} {L : List α} {i : Nat} {p : α}
    (h : L[i]? = some p) : L.Perm (p :: L.eraseIdx i) := by
  have hi : i < L.length := by
    by_contra hni
    rw [List.getElem?_eq_none (by omega)] at h
    cases h
  have hLi : L[i] = p := by
    have := List.getElem?_eq_getElem hi
    rw [h] at this
    exact (Option.some.injEq _ _ ▸ this.symm)
  have hdec : L = L.take i ++ L[i] :: L.drop (i + 1) := by
    conv_lhs => rw [← List.take_append_drop i L]
    rw [List.drop_eq_getElem_cons hi]
  have h0 : L.Perm (L[i] :: (L.take i ++ L.drop (i + 1))) := by
    conv_lhs => rw [hdec]
    exact List.perm_middle
  rw [List.eraseIdx_eq_take_drop_succ, ← hLi]
  exact h0

theorem piece_eq_of_fields {p q : Piece} (h1 : p.is_goal = q.is_goal)
    (h2 : p.is_single = q.is_single) (h3 : p.coord_x = q.coord_x)
    (h4 : p.coord_y = q.coord_y) (h5 : p.orientation = q.orientation) : p = q := by
  cases p
  cases q
  simp_all

/-! ## Reading pieces back off the grid -/

theorem renderCells_single_char {q : Piece} (hw : WfPiece q) {c : Int × Int}
    (h : (c, char_single) ∈ q.renderCells) :
    q.is_goal = false ∧ q.is_single = true ∧ q.orientation = none ∧
    c = (q.coord_x, q.coord_y) := by
  rcases hw with ⟨hg, hs, ho⟩ | ⟨hg, hs, ho⟩ | ⟨hg, hs, ho⟩
  · unfold Piece.renderCells at h
    rw [if_pos hg] at h
    simp [char_goal, char_single] at h
  · unfold Piece.renderCells at h
    rw [if_neg (by simp [hg]), if_pos hs] at h
    simp only [List.mem_singleton, Prod.mk.injEq] at h
    exact ⟨hg, hs, ho, h.1⟩
  · unfold Piece.renderCells at h
    rcases ho with hh | hv
    · rw [if_neg (by simp [hg]), if_neg (by simp [hs]), if_pos hh] at h
      simp [char_single] at h
    · rw [if_neg (by simp [hg]), if_neg (by simp [hs]),
        if_neg (by simp [hv]), if_pos hv] at h
      simp [char_single] at h

theorem renderCells_h_char {q : Piece} (hw : WfPiece q) {c : Int × Int}
    (h : (c, '<') ∈ q.renderCells) :
    q.is_goal = false ∧ q.is_single = false ∧ q.orientation = some 'h' ∧
    c = (q.coord_x, q.coord_y) := by
  rcases hw with ⟨hg, hs, ho⟩ | ⟨hg, hs, ho⟩ | ⟨hg, hs, ho⟩
  · unfold Piece.renderCells at h
    rw [if_pos hg] at h
    simp [char_goal] at h
  · unfold Piece.renderCells at h
    rw [if_neg (by simp [hg]), if_pos hs] at h
    simp [char_single] at h
  · unfold Piece.renderCells at h
    rcases ho with hh | hv
    · rw [if_neg (by simp [hg]), if_neg (by simp [hs]), if_pos hh] at h
      simp only [List.mem_cons, List.not_mem_nil, or_false, Prod.mk.injEq] at h
      rcases h with ⟨hc, -⟩ | ⟨-, hbad⟩
      · exact ⟨hg, hs, hh, hc⟩
      · cases hbad
    · rw [if_neg (by simp [hg]), if_neg (by simp [hs]),
        if_neg (by simp [hv]), if_pos hv] at h
      simp at h

theorem renderCells_v_char {q : Piece} (hw : WfPiece q) {c : Int × Int}
    (h : (c, '^') ∈ q.renderCells) :
    q.is_goal = false ∧ q.is_single = false ∧ q.orientation = some 'v' ∧
    c = (q.coord_x, q.coord_y) := by
  rcases hw with ⟨hg, hs, ho⟩ | ⟨hg, hs, ho⟩ | ⟨hg, hs, ho⟩
  · unfold Piece.renderCells at h
    rw [if_pos hg] at h
    simp [char_goal] at h
  · unfold Piece.renderCells at h
    rw [if_neg (by simp [hg]), if_pos hs] at h
    simp [char_single] at h
  · unfold Piece.renderCells at h
    rcases ho with hh | hv
    · rw [if_neg (by simp [hg]), if_neg (by simp [hs]), if_pos hh] at h
      simp at h
    · rw [if_neg (by simp [hg]), if_neg (by simp [hs]),
        if_neg (by simp [hv]), if_pos hv] at h
      simp only [List.mem_cons, List.not_mem_nil, or_false, Prod.mk.injEq] at h
      rcases h with ⟨hc, -⟩ | ⟨-, hbad⟩
      · exact ⟨hg, hs, hv, hc⟩
      · cases hbad

/-! ## The board key determines the grid -/

theorem flatten_rows_inj : ∀ (g1 g2 : List (List Char)),
    (∀ r ∈ g1, r.length = 4) → (∀ r ∈ g2, r.length = 4) →
    g1.length = g2.length → g1.flatten = g2.flatten → g1 = g2 := by
  intro g1
  induction g1 with
  | nil =>
    intro g2 _ _ hlen _
    cases g2 with
    | nil => rfl
    | cons r g2 => cases hlen
  | cons r g1 ih =>
    intro g2 h1 h2 hlen hf
    cases g2 with
    | nil => cases hlen
    | cons r2 g2 =>
      simp only [List.flatten_cons] at hf
      have e1 : r.length = 4 := h1 r (List.mem_cons_self _ _)
      have e2 : r2.length = 4 := h2 r2 (List.mem_cons_self _ _)
      obtain ⟨hr, hrest⟩ := List.append_inj hf (by omega)
      rw [hr, ih g2 (fun s hs => h1 s (List.mem_cons_of_mem _ hs))
        (fun s hs => h2 s (List.mem_cons_of_mem _ hs)) (by simpa using hlen) hrest]

theorem boardKey_inj_grid {b1 b2 : Board} (h : boardKey b1 = boardKey b2) :
    b1.grid = b2.grid := by
  unfold boardKey boardStr at h
  have hdata : b1.grid.flatten = b2.grid.flatten := congrArg String.data h
  have s1 : GridShape b1.grid := shape_construct_grid b1.pieces
  have s2 : GridShape b2.grid := shape_construct_grid b2.pieces
  exact flatten_rows_inj _ _ s1.2 s2.2 (by rw [s1.1, s2.1]) hdata

/-! ## Move tests depend only on the grid -/

theorem is_empty_grid_congr {b1 b2 : Board} (h : b1.grid = b2.grid) (x y : Int) :
    is_empty b1 x y = is_empty b2 x y := by
  unfold is_empty empty_spaces
  rw [h]

theorem legal_grid_congr {b1 b2 : Board} (h : b1.grid = b2.grid) (p : Piece) (d : Dir) :
    legal b1 p d = legal b2 p d := by
  unfold legal
  rw [show (fun c : Int × Int => is_empty b1 c.1 c.2)
    = (fun c : Int × Int => is_empty b2 c.1 c.2) from
    funext fun c => is_empty_grid_congr h c.1 c.2]

theorem allowed_grid_congr {b1 b2 : Board} (h : b1.grid = b2.grid) (p : Piece) (d : Dir) :
    allowed b1 p d = allowed b2 p d := by
  unfold allowed
  cases d <;> split_ifs <;> simp [legal_grid_congr h]

theorem goalB_grid_congr {b1 b2 : Board} (h : b1.grid = b2.grid) :
    goalB b1 = goalB b2 := by
  unfold goalB
  rw [h]

/-! ## Render inversion: under the invariants the grid determines the
piece multiset -/

theorem pieces_subset_of_grid {b1 b2 : Board} (h1 : Inv b1) (h2 : Inv b2)
    (hg : b1.grid = b2.grid) : ∀ p ∈ b1.pieces, p ∈ b2.pieces := by
  intro p hp
  have hw := h1.1 p hp
  have hcell : ∀ c s, (c, s) ∈ p.renderCells →
      getCellN b2.grid c.2.toNat c.1.toNat = s := by
    intro c s hc
    rw [← hg]
    exact grid_cell_of_renderCells h1 hp hc
  have hbnd : ∀ c, c ∈ p.cells → inB c := h1.2.1 p hp
  rcases hw with ⟨hpg, hps, hpo⟩ | ⟨hpg, hps, hpo⟩ | ⟨hpg, hps, hpo⟩
  · -- the goal piece: identified through the unique goal piece of `b2`
    obtain ⟨q2, hq2, hq2g, huniq2, -⟩ := exists_unique_goal h2
    have hm1 : ((p.coord_x, p.coord_y), char_goal) ∈ p.renderCells := by
      unfold Piece.renderCells
      rw [if_pos hpg]
      exact List.mem_cons_self _ _
    have hm4 : ((p.coord_x + 1, p.coord_y + 1), char_goal) ∈ p.renderCells := by
      unfold Piece.renderCells
      rw [if_pos hpg]
      simp
    have hb1 : inB (p.coord_x, p.coord_y) :=
      hbnd _ (List.mem_map_of_mem Prod.fst hm1)
    have hb4 : inB (p.coord_x + 1, p.coord_y + 1) :=
      hbnd _ (List.mem_map_of_mem Prod.fst hm4)
    obtain ⟨r1, hr1, hr1m⟩ := grid_cell_mem h2 hb1 (hcell _ _ hm1) (by decide)
    obtain ⟨r4, hr4, hr4m⟩ := grid_cell_mem h2 hb4 (hcell _ _ hm4) (by decide)
    obtain ⟨hr1g, hc1⟩ := renderCells_goal_char hr1m
    obtain ⟨hr4g, hc4⟩ := renderCells_goal_char hr4m
    rw [huniq2 r1 hr1 hr1g] at hc1
    rw [huniq2 r4 hr4 hr4g] at hc4
    have hxy : p.coord_x = q2.coord_x ∧ p.coord_y = q2.coord_y := by
      rcases hc1 with h | h | h | h <;> rcases hc4 with h' | h' | h' | h' <;>
        (simp only [Prod.mk.injEq] at h h'; constructor <;> omega)
    have hw2 := h2.1 q2 hq2
    rcases hw2 with ⟨hg2, hs2, ho2⟩ | ⟨hg2, -, -⟩ | ⟨hg2, -, -⟩
    · have : p = q2 := piece_eq_of_fields (hpg.trans hg2.symm)
        (hps.trans hs2.symm) hxy.1 hxy.2 (hpo.trans ho2.symm)
      rw [this]
      exact hq2
    · rw [hq2g] at hg2
      cases hg2
    · rw [hq2g] at hg2
      cases hg2
  · -- a single piece: identified through its `'2'` anchor cell
    have hm : ((p.coord_x, p.coord_y), char_single) ∈ p.renderCells := by
      unfold Piece.renderCells
      rw [if_neg (by simp [hpg]), if_pos hps]
      exact List.mem_cons_self _ _
    have hbp : inB (p.coord_x, p.coord_y) :=
      hbnd _ (List.mem_map_of_mem Prod.fst hm)
    obtain ⟨q, hq, hqm⟩ := grid_cell_mem h2 hbp (hcell _ _ hm) (by decide)
    obtain ⟨hqg, hqs, hqo, hqc⟩ := renderCells_single_char (h2.1 q hq) hqm
    simp only [Prod.mk.injEq] at hqc
    have : p = q := piece_eq_of_fields (hpg.trans hqg.symm)
      (hps.trans hqs.symm) hqc.1 hqc.2 (hpo.trans hqo.symm)
    rw [this]
    exact hq
  · rcases hpo with hph | hpv
    · -- a horizontal domino: identified through its `'<'` anchor cell
      have hm : ((p.coord_x, p.coord_y), '<') ∈ p.renderCells := by
        unfold Piece.renderCells
        rw [if_neg (by simp [hpg]), if_neg (by simp [hps]), if_pos hph]
        exact List.mem_cons_self _ _
      have hbp : inB (p.coord_x, p.coord_y) :=
        hbnd _ (List.mem_map_of_mem Prod.fst hm)
      obtain ⟨q, hq, hqm⟩ := grid_cell_mem h2 hbp (hcell _ _ hm) (by decide)
      obtain ⟨hqg, hqs, hqo, hqc⟩ := renderCells_h_char (h2.1 q hq) hqm
      simp only [Prod.mk.injEq] at hqc
      have : p = q := piece_eq_of_fields (hpg.trans hqg.symm)
        (hps.trans hqs.symm) hqc.1 hqc.2 (hph.trans hqo.symm)
      rw [this]
      exact hq
    · -- a vertical domino: identified through its `'^'` anchor cell
      have hm : ((p.coord_x, p.coord_y), '^') ∈ p.renderCells := by
        unfold Piece.renderCells
        rw [if_neg (by simp [hpg]), if_neg (by simp [hps]),
          if_neg (by simp [hpv]), if_pos hpv]
        exact List.mem_cons_self _ _
      have hbp : inB (p.coord_x, p.coord_y) :=
        hbnd _ (List.mem_map_of_mem Prod.fst hm)
      obtain ⟨q, hq, hqm⟩ := grid_cell_mem h2 hbp (hcell _ _ hm) (by decide)
      obtain ⟨hqg, hqs, hqo, hqc⟩ := renderCells_v_char (h2.1 q hq) hqm
      simp only [Prod.mk.injEq] at hqc
      have : p = q := piece_eq_of_fields (hpg.trans hqg.symm)
        (hps.trans hqs.symm) hqc.1 hqc.2 (hpv.trans hqo.symm)
      rw [this]
      exact hq

theorem pieces_perm_of_grid {b1 b2 : Board} (h1 : Inv b1) (h2 : Inv b2)
    (hg : b1.grid = b2.grid) : b1.pieces.Perm b2.pieces := by
  refine List.perm_of_nodup_nodup_toFinset_eq (invL_nodup h1) (invL_nodup h2) ?_
  ext p
  simp only [List.mem_toFinset]
  exact ⟨fun h => pieces_subset_of_grid h1 h2 hg p h,
    fun h => pieces_subset_of_grid h2 h1 hg.symm p h⟩

theorem grid_of_perm {b1 b2 : Board} (h1 : Inv b1)
    (hperm : b1.pieces.Perm b2.pieces) : b1.grid = b2.grid :=
  render_perm hperm h1.2.1 h1.2.2.1

theorem manhattan_grid_congr {b1 b2 : Board} (h1 : Inv b1) (h2 : Inv b2)
    (hg : b1.grid = b2.grid) : manhattan b1 = manhattan b2 := by
  obtain ⟨p, hp, hpg, -, hg1⟩ := exists_unique_goal h1
  obtain ⟨q, hq, hqg, huniq2, hg2⟩ := exists_unique_goal h2
  have hpq : p = q := huniq2 p (pieces_subset_of_grid h1 h2 hg p hp) hpg
  unfold manhattan
  rw [hg1, hg2, hpq]

/-! ## Key-equal boards simulate each other's moves -/

theorem boardMoves_bisim {b1 b2 : Board} (h1 : Inv b1) (h2 : Inv b2)
    (hperm : b1.pieces.Perm b2.pieces) :
    ∀ c1 ∈ boardMoves b1, ∃ c2 ∈ boardMoves b2, c1.pieces.Perm c2.pieces := by
  intro c1 hc1
  obtain ⟨i, p, d, hip, hall, rfl⟩ := (mem_boardMoves_iff h1.1 c1).mp hc1
  have hpm2 : p ∈ b2.pieces := hperm.subset (List.getElem?_mem hip)
  obtain ⟨j, hj, hjp⟩ := List.mem_iff_getElem.mp hpm2
  have hjp? : b2.pieces[j]? = some p := by
    rw [List.getElem?_eq_getElem hj, hjp]
  have hgrid : b1.grid = b2.grid := grid_of_perm h1 hperm
  have hall2 : allowed b2 p d = true := by
    rw [← allowed_grid_congr hgrid p d]
    exact hall
  refine ⟨new_board b2.pieces (movedPiece p d) j,
    (mem_boardMoves_iff h2.1 _).mpr ⟨j, p, d, hjp?, hall2, rfl⟩, ?_⟩
  show (movedPiece p d :: b1.pieces.eraseIdx i).Perm
    (movedPiece p d :: b2.pieces.eraseIdx j)
  refine List.Perm.cons _ ?_
  have e1 := perm_cons_eraseIdx hip
  have e2 := perm_cons_eraseIdx hjp?
  exact (e1.symm.trans (hperm.trans e2)).cons_inv

theorem reachBGoal_perm : ∀ (k : Nat) {b1 b2 : Board}, Inv b1 → Inv b2 →
    b1.pieces.Perm b2.pieces → ReachBGoal b1 k → ReachBGoal b2 k := by
  intro k
  induction k with
  | zero =>
    rintro b1 b2 h1 h2 hperm ⟨g, hr, hgl⟩
    have hgb : g = b1 := reachN_zero hr
    subst hgb
    refine ⟨b2, ReachN.refl _, ?_⟩
    rw [← goalB_grid_congr (grid_of_perm h1 hperm)]
    exact hgl
  | succ k ih =>
    rintro b1 b2 h1 h2 hperm ⟨g, hr, hgl⟩
    obtain ⟨c1, hc1, hcr⟩ := reachN_peel hr
    obtain ⟨c2, hc2, hcp⟩ := boardMoves_bisim h1 h2 hperm c1 hc1
    have hic1 : Inv c1 := inv_move hc1 h1
    have hic2 : Inv c2 := inv_move hc2 h2
    obtain ⟨g2, hr2, hg2⟩ := ih hic1 hic2 hcp ⟨g, hcr, hgl⟩
    exact ⟨g2, reachN_cons hc2 hr2, hg2⟩

theorem reachBGoal_key {b1 b2 : Board} (h1 : Inv b1) (h2 : Inv b2)
    (hk : boardKey b1 = boardKey b2) {m : Nat} (h : ReachBGoal b1 m) :
    ReachBGoal b2 m :=
  reachBGoal_perm m h1 h2 (pieces_perm_of_grid h1 h2 (boardKey_inj_grid hk)) h

theorem manhattan_key_congr {b1 b2 : Board} (h1 : Inv b1) (h2 : Inv b2)
    (hk : boardKey b1 = boardKey b2) : manhattan b1 = manhattan b2 :=
  manhattan_grid_congr h1 h2 (boardKey_inj_grid hk)

/-! ## The heuristic along moves -/

theorem manhattan_goal_zero {b : Board} (h : Inv b) (hg : goalB b = true) :
    manhattan b = 0 := by
  have ha := (goalB_iff_anchor h).mp hg
  unfold manhattan
  rw [ha]
  decide

theorem manhattan_consistent {b c : Board} (h : Inv b) (hc : c ∈ boardMoves b) :
    manhattan b ≤ manhattan c + 1 ∧ manhattan c ≤ manhattan b + 1 := by
  have hinvc : Inv c := inv_move hc h
  obtain ⟨i, p, d, hip, hall, rfl⟩ := (mem_boardMoves_iff h.1 c).mp hc
  obtain ⟨q, hq, hqg, huniq, hgb⟩ := exists_unique_goal h
  have hmb : manhattan b = |q.coord_x - 1| + |q.coord_y - 3| := by
    unfold manhattan
    rw [hgb]
  obtain ⟨q', hq', hq'g, huniq', hgc⟩ := exists_unique_goal hinvc
  have hmc : manhattan (new_board b.pieces (movedPiece p d) i)
      = |q'.coord_x - 1| + |q'.coord_y - 3| := by
    unfold manhattan
    rw [hgc]
  by_cases hpg : p.is_goal = true
  · have hpq : p = q := huniq p (List.getElem?_mem hip) hpg
    have hq'm : q' = movedPiece p d :=
      (huniq' (movedPiece p d) (List.mem_cons_self _ _)
        (by rw [(movedPiece_flags p d).1]; exact hpg)).symm
    rw [hmb, hmc, hq'm, ← hpq]
    obtain ⟨pg, ps, px, py, po⟩ := p
    cases d <;>
      (dsimp only [movedPiece]
       rcases abs_cases (px - 1) with ⟨e1, f1⟩ | ⟨e1, f1⟩ <;>
         rcases abs_cases (py - 3) with ⟨e2, f2⟩ | ⟨e2, f2⟩ <;>
         rcases abs_cases (px + 1 - 1) with ⟨e3, f3⟩ | ⟨e3, f3⟩ <;>
         rcases abs_cases (px - 1 - 1) with ⟨e4, f4⟩ | ⟨e4, f4⟩ <;>
         rcases abs_cases (py + 1 - 3) with ⟨e5, f5⟩ | ⟨e5, f5⟩ <;>
         rcases abs_cases (py - 1 - 3) with ⟨e6, f6⟩ | ⟨e6, f6⟩ <;>
         constructor <;> omega)
  · have hqne : q ≠ p := fun h' => hpg (h' ▸ hqg)
    have hqmem' : q ∈ (new_board b.pieces (movedPiece p d) i).pieces := by
      have hcons := (perm_cons_eraseIdx hip).mem_iff.mp hq
      rcases List.mem_cons.mp hcons with hqp | hqe
      · exact absurd hqp hqne
      · exact List.mem_cons_of_mem _ hqe
    have hq'q : q' = q := (huniq' q hqmem' hqg).symm
    rw [hmb, hmc, hq'q]
    constructor <;> omega

theorem reach_manhattan_le : ∀ (m : Nat) {b : Board}, Inv b → ReachBGoal b m →
    manhattan b ≤ (m : Int) := by
  intro m
  induction m with
  | zero =>
    rintro b h ⟨g, hr, hgl⟩
    have hgb : g = b := reachN_zero hr
    subst hgb
    rw [manhattan_goal_zero h hgl]
    exact le_refl _
  | succ m ih =>
    rintro b h ⟨g, hr, hgl⟩
    obtain ⟨c, hc, hcr⟩ := reachN_peel hr
    have hinvc : Inv c := inv_move hc h
    have h1 := ih hinvc ⟨g, hcr, hgl⟩
    have h2 := (manhattan_consistent h hc).1
    push_cast
    omega

/-! ## Relaxation transport facts for the A* invariants -/

theorem lookup_insert_self : ∀ (e : List (String × State)) (k : String) (v : State),
    lookupExp (insertExp e k v) k = some v := by
  intro e
  induction e with
  | nil =>
    intro k v
    simp [insertExp, lookupExp]
  | cons kv e ih =>
    intro k v
    obtain ⟨k', v'⟩ := kv
    unfold insertExp
    split_ifs with hk
    · unfold lookupExp
      rw [if_pos rfl]
    · unfold lookupExp
      rw [if_neg hk]
      exact ih k v

theorem lookup_insert_ne : ∀ (e : List (String × State)) {k k0 : String} (v : State),
    k0 ≠ k → lookupExp (insertExp e k v) k0 = lookupExp e k0 := by
  intro e
  induction e with
  | nil =>
    intro k k0 v hne
    unfold insertExp lookupExp
    rw [if_neg (fun h => hne h.symm)]
    rfl
  | cons kv e ih =>
    intro k k0 v hne
    obtain ⟨k', v'⟩ := kv
    unfold insertExp
    split_ifs with hk
    · subst hk
      unfold lookupExp
      rw [if_neg (fun h => hne h.symm), if_neg (fun h => hne h.symm)]
    · unfold lookupExp
      split_ifs with hk0
      · rfl
      · exact ih v hne

theorem lookupExp_of_mem : ∀ {e : List (String × State)},
    (expKeys e).Nodup → ∀ {kv : String × State}, kv ∈ e →
    lookupExp e kv.1 = some kv.2 := by
  intro e
  induction e with
  | nil => intro _ kv h; cases h
  | cons kv' e ih =>
    intro hnd kv hkv
    obtain ⟨k', v'⟩ := kv'
    have hnd' : (expKeys e).Nodup := by
      simp only [expKeys, List.map_cons, List.nodup_cons] at hnd
      exact hnd.2
    rcases List.mem_cons.mp hkv with rfl | hkv
    · unfold lookupExp
      rw [if_pos rfl]
    · unfold lookupExp
      split_ifs with hk
      · exfalso
        simp only [expKeys, List.map_cons, List.nodup_cons] at hnd
        exact hnd.1 (hk ▸ List.mem_map_of_mem Prod.fst hkv)
      · exact ih hnd' hkv

theorem relaxAll_lookup_mono : ∀ (ss f : List State) (e : List (String × State))
    {k : String} {old : State}, lookupExp e k = some old →
    ∃ new, lookupExp (relaxAll ss f e).2 k = some new ∧ new.f ≤ old.f := by
  intro ss
  induction ss with
  | nil =>
    intro f e k old h
    exact ⟨old, h, le_refl _⟩
  | cons s ss ih =>
    intro f e k old h
    unfold relaxAll
    dsimp only
    cases hlk : lookupExp e (boardKey s.board) with
    | none =>
      have hne : k ≠ boardKey s.board := by
        intro hk
        rw [hk, hlk] at h
        cases h
      obtain ⟨new, hn1, hn2⟩ := ih (f ++ [s]) (insertExp e (boardKey s.board) s)
        (by rw [lookup_insert_ne e s hne]; exact h)
      exact ⟨new, hn1, hn2⟩
    | some oldrec =>
      dsimp only
      split_ifs with hlt
      · by_cases hk : k = boardKey s.board
        · subst hk
          rw [hlk] at h
          cases h
          obtain ⟨new, hn1, hn2⟩ := ih (f ++ [s]) (insertExp e (boardKey s.board) s)
            (lookup_insert_self e (boardKey s.board) s)
          exact ⟨new, hn1, le_trans hn2 (le_of_lt hlt)⟩
        · obtain ⟨new, hn1, hn2⟩ := ih (f ++ [s]) (insertExp e (boardKey s.board) s)
            (by rw [lookup_insert_ne e s hk]; exact h)
          exact ⟨new, hn1, hn2⟩
      · exact ih f e h

theorem relaxAll_coverage : ∀ (ss f : List State) (e : List (String × State))
    {t : State}, t ∈ ss →
    ∃ new, lookupExp (relaxAll ss f e).2 (boardKey t.board) = some new ∧
      new.f ≤ t.f := by
  intro ss
  induction ss with
  | nil => intro _ _ _ h; cases h
  | cons s ss ih =>
    intro f e t ht
    unfold relaxAll
    dsimp only
    rcases List.mem_cons.mp ht with rfl | ht
    · cases hlk : lookupExp e (boardKey t.board) with
      | none =>
        dsimp only
        exact relaxAll_lookup_mono ss (f ++ [t]) _
          (lookup_insert_self e (boardKey t.board) t)
      | some old =>
        dsimp only
        split_ifs with hlt
        · exact relaxAll_lookup_mono ss (f ++ [t]) _
            (lookup_insert_self e (boardKey t.board) t)
        · obtain ⟨new, hn1, hn2⟩ := relaxAll_lookup_mono ss f e hlk
          exact ⟨new, hn1, le_trans hn2 (not_lt.mp hlt)⟩
    · cases hlk : lookupExp e (boardKey s.board) with
      | none => exact ih _ _ ht
      | some old =>
        dsimp only
        split_ifs with hlt
        · exact ih _ _ ht
        · exact ih _ _ ht

theorem relaxAll_fst_super : ∀ (ss f : List State) (e : List (String × State))
    {s : State}, s ∈ f → s ∈ (relaxAll ss f e).1 := by
  intro ss
  induction ss with
  | nil => intro f e s h; exact h
  | cons x ss ih =>
    intro f e s h
    unfold relaxAll
    dsimp only
    cases lookupExp e (boardKey x.board) with
    | none => exact ih _ _ (List.mem_append_left _ h)
    | some old =>
      dsimp only
      split_ifs with hlt
      · exact ih _ _ (List.mem_append_left _ h)
      · exact ih _ _ h

theorem relaxAll_entry_cases : ∀ (ss f : List State) (e : List (String × State))
    {kv : String × State}, kv ∈ (relaxAll ss f e).2 →
    kv ∈ e ∨ kv.2 ∈ (relaxAll ss f e).1 := by
  intro ss
  induction ss with
  | nil => intro f e kv h; exact Or.inl h
  | cons s ss ih =>
    intro f e kv hkv
    unfold relaxAll at hkv ⊢
    dsimp only at hkv ⊢
    cases hlk : lookupExp e (boardKey s.board) with
    | none =>
      rw [hlk] at hkv
      rcases ih _ _ hkv with hold | hfront
      · rcases mem_insertExp hold with hold | rfl
        · exact Or.inl hold
        · exact Or.inr (relaxAll_fst_super ss _ _ (List.mem_append_right _
            (List.mem_singleton.mpr rfl)))
      · exact Or.inr hfront
    | some old =>
      rw [hlk] at hkv
      dsimp only at hkv ⊢
      split_ifs at hkv ⊢ with hlt
      · rcases ih _ _ hkv with hold | hfront
        · rcases mem_insertExp hold with hold | rfl
          · exact Or.inl hold
          · exact Or.inr (relaxAll_fst_super ss _ _ (List.mem_append_right _
              (List.mem_singleton.mpr rfl)))
        · exact Or.inr hfront
      · rcases ih _ _ hkv with hold | hfront
        · exact Or.inl hold
        · exact Or.inr hfront

/-! ## The A* optimality invariants -/

/-- A genuinely-produced search state: invariant board, nonnegative
depth, the code's `f = manhattan + depth` bookkeeping, and a board
reachable from `b0` in exactly `depth` moves. -/
def Good (b0 : Board) (s : State) : Prop :=
  Inv s.board ∧ 0 ≤ s.depth ∧ s.f = manhattan s.board + s.depth ∧
  ReachN b0 s.depth.toNat s.board

/-- An explored-map entry: keyed by its own state's board. -/
def EGood (b0 : Board) (kv : String × State) : Prop :=
  kv.1 = boardKey kv.2.board ∧ Good b0 kv.2

/-- An entry still covered by the frontier: some frontier state with the
same key and no worse `f`. -/
def OpenE (frontier : List State) (kv : String × State) : Prop :=
  ∃ s ∈ frontier, boardKey s.board = kv.1 ∧ s.f ≤ kv.2.f

/-- An entry whose board has already been expanded: it was not a goal,
and every board-level move out of it has an entry no worse than one step
past this entry. -/
def ClosedE (explored : List (String × State)) (kv : String × State) : Prop :=
  goalB kv.2.board = false ∧
  ∀ c ∈ boardMoves kv.2.board, ∃ kv' ∈ explored, kv'.1 = boardKey c ∧
    kv'.2.f ≤ manhattan c + kv.2.depth + 1

/-- The loop invariant of `astar` relative to the initial board `b0` and
a distance bound `dstar` at which a goal is reachable. -/
def AstarInv (b0 : Board) (dstar : Nat) (frontier : List State)
    (explored : List (String × State)) : Prop :=
  (∀ s ∈ frontier, Good b0 s) ∧
  (∀ kv ∈ explored, EGood b0 kv) ∧
  (expKeys explored).Nodup ∧
  (∀ kv ∈ explored, OpenE frontier kv ∨ ClosedE explored kv) ∧
  (∃ kv ∈ explored, ∃ m, ReachBGoal kv.2.board m ∧ kv.2.depth.toNat + m ≤ dstar)

/-- The chase: from an explored entry on an optimal path, walking closed
entries down the path reaches an open one, so the frontier always holds a
state with `f ≤ dstar`. -/
theorem chase {b0 : Board} {dstar : Nat} :
    ∀ (m : Nat) (frontier : List State) (explored : List (String × State)),
    (∀ s ∈ frontier, Good b0 s) →
    (∀ kv ∈ explored, EGood b0 kv) →
    (∀ kv ∈ explored, OpenE frontier kv ∨ ClosedE explored kv) →
    ∀ kv ∈ explored, ReachBGoal kv.2.board m → kv.2.depth.toNat + m ≤ dstar →
    ∃ s ∈ frontier, Good b0 s ∧ s.f ≤ (dstar : Int) := by
  intro m
  induction m using Nat.strong_induction_on with
  | _ m ih =>
    intro frontier explored hfr hexp hdich kv hkv hrg hbound
    have hkvE := hexp kv hkv
    rcases hdich kv hkv with ⟨s, hs, hks, hfs⟩ | ⟨hgoal, hexpd⟩
    · refine ⟨s, hs, hfr s hs, ?_⟩
      have hadm := reach_manhattan_le m hkvE.2.1 hrg
      have hfkv := hkvE.2.2.2.1
      have hdep0 := hkvE.2.2.1
      omega
    · cases m with
      | zero =>
        obtain ⟨g, hr, hgl⟩ := hrg
        rw [reachN_zero hr] at hgl
        exact absurd (hgoal ▸ hgl) Bool.false_ne_true
      | succ m' =>
        obtain ⟨g, hr, hgl⟩ := hrg
        obtain ⟨c, hc, hcr⟩ := reachN_peel hr
        obtain ⟨kv', hkv', hk', hf'⟩ := hexpd c hc
        have hkv'E := hexp kv' hkv'
        have hinvc : Inv c := inv_move hc hkvE.2.1
        have hrg' : ReachBGoal kv'.2.board m' :=
          reachBGoal_key hinvc hkv'E.2.1 (hk'.symm.trans hkv'E.1) ⟨g, hcr, hgl⟩
        have hman : manhattan kv'.2.board = manhattan c :=
          manhattan_key_congr hkv'E.2.1 hinvc (hkv'E.1.symm.trans hk')
        have hfd' := hkv'E.2.2.2.1
        have hd0' := hkv'E.2.2.1
        have hd0 := hkvE.2.2.1
        exact ih m' (Nat.lt_succ_self m') frontier explored hfr hexp hdich
          kv' hkv' hrg' (by omega)

theorem boardKey_grid_congr {b1 b2 : Board} (h : b1.grid = b2.grid) :
    boardKey b1 = boardKey b2 := by
  unfold boardKey boardStr
  rw [h]

/-- One non-goal iteration of the A* loop preserves the optimality
invariant. -/
theorem astarInv_step {b0 : Board} {dstar : Nat} {frontier rest : List State}
    {explored : List (String × State)} {curr : State}
    (hinv : AstarInv b0 dstar frontier explored)
    (hpm : popMin frontier = some (curr, rest))
    (hg : goal_test curr = false) :
    AstarInv b0 dstar (relaxAll (generate_successors curr) rest explored).1
      (relaxAll (generate_successors curr) rest explored).2 := by
  obtain ⟨hfr, hexp, hnd, hdich, hopt⟩ := hinv
  obtain ⟨hcm, hperm, hmin, -⟩ := popMin_spec hpm
  have hcg : Good b0 curr := hfr curr hcm
  have hssgood : ∀ t ∈ generate_successors curr, Good b0 t := by
    intro t ht
    have hbm : t.board ∈ boardMoves curr.board := by
      rw [← gs_boards]
      exact List.mem_map_of_mem State.board ht
    have hinvt : Inv t.board := inv_step hcg.1 ht
    obtain ⟨nb, rfl⟩ := mem_gs_shape ht
    refine ⟨hinvt, ?_, ?_, ?_⟩
    · show 0 ≤ curr.depth + 1
      have := hcg.2.1
      omega
    · show manhattan nb + curr.depth + 1 = manhattan nb + (curr.depth + 1)
      ring
    · show ReachN b0 (curr.depth + 1).toNat nb
      have hto : (curr.depth + 1).toNat = curr.depth.toNat + 1 := by
        have := hcg.2.1
        omega
      rw [hto]
      exact ReachN.step hcg.2.2.2 hbm
  have hssf : ∀ t ∈ generate_successors curr, 0 ≤ t.f := by
    intro t ht
    have hG := hssgood t ht
    have h1 := manhattan_nonneg t.board
    have h2 := hG.2.1
    rw [hG.2.2.1]
    omega
  obtain ⟨ts, h1, h2, h3, h4, h5, h6⟩ :=
    relaxAll_decomp (generate_successors curr) rest explored hnd hssf
  have hfr' : ∀ s ∈ (relaxAll (generate_successors curr) rest explored).1,
      Good b0 s := by
    rw [h1]
    intro s hs
    rcases List.mem_append.mp hs with hs | hs
    · exact hfr s (hperm.subset (List.mem_cons_of_mem _ hs))
    · exact hssgood s (h2 s hs)
  have hexp' : ∀ kv ∈ (relaxAll (generate_successors curr) rest explored).2,
      EGood b0 kv := by
    intro kv hkv
    rcases h5 kv hkv with hold | ⟨t, ht, rfl⟩
    · exact hexp kv hold
    · exact ⟨rfl, hssgood t ht⟩
  refine ⟨hfr', hexp', h3, ?_, ?_⟩
  · intro kv hkv
    rcases relaxAll_entry_cases (generate_successors curr) rest explored hkv
      with hold | hfront
    · rcases hdich kv hold with ⟨s, hsf, hks, hfs⟩ | ⟨hgb, hexpd⟩
      · rcases List.mem_cons.mp (hperm.mem_iff.mpr hsf) with hscurr | hsr
        · -- the only frontier cover was the popped state: the entry is
          -- now closed, witnessed by the relaxed successors
          rw [hscurr] at hks hfs
          right
          have hkvE := hexp kv hold
          have hkeq : boardKey curr.board = boardKey kv.2.board :=
            hks.trans hkvE.1
          have hgridkv : curr.board.grid = kv.2.board.grid := boardKey_inj_grid hkeq
          have hikv : Inv kv.2.board := hkvE.2.1
          have hman : manhattan kv.2.board = manhattan curr.board :=
            manhattan_key_congr hikv hcg.1 hkeq.symm
          have hdepc : curr.depth ≤ kv.2.depth := by
            have e1 := hcg.2.2.1
            have e2 := hkvE.2.2.2.1
            omega
          refine ⟨?_, ?_⟩
          · rw [← goalB_grid_congr hgridkv]
            exact hg
          · intro c hcmv
            obtain ⟨c2, hc2, hcp⟩ := boardMoves_bisim hikv hcg.1
              (pieces_perm_of_grid hikv hcg.1 hgridkv.symm) c hcmv
            have hinvc : Inv c := inv_move hcmv hikv
            have hinvc2 : Inv c2 := inv_move hc2 hcg.1
            have hgc : c.grid = c2.grid := grid_of_perm hinvc hcp
            rw [← gs_boards] at hc2
            obtain ⟨t2, ht2, hbt2⟩ := List.mem_map.mp hc2
            obtain ⟨new, hlu, hnf⟩ :=
              relaxAll_coverage (generate_successors curr) rest explored ht2
            have hdep2 : t2.depth = curr.depth + 1 := by
              obtain ⟨nb, rfl⟩ := mem_gs_shape ht2
              rfl
            have hft2 : t2.f = manhattan t2.board + t2.depth :=
              (hssgood t2 ht2).2.2.1
            have hmt2 : manhattan t2.board = manhattan c := by
              rw [hbt2]
              exact manhattan_grid_congr hinvc2 hinvc hgc.symm
            refine ⟨(boardKey t2.board, new), lookupExp_mem hlu, ?_, ?_⟩
            · show boardKey t2.board = boardKey c
              rw [hbt2]
              exact (boardKey_grid_congr hgc).symm
            · show new.f ≤ manhattan c + kv.2.depth + 1
              have : new.f ≤ t2.f := hnf
              omega
        · left
          exact ⟨s, by rw [h1]; exact List.mem_append_left _ hsr, hks, hfs⟩
      · right
        refine ⟨hgb, ?_⟩
        intro c hcmv
        obtain ⟨kv'', hkv'', hk'', hf''⟩ := hexpd c hcmv
        obtain ⟨new, hlu, hnf⟩ := relaxAll_lookup_mono (generate_successors curr)
          rest explored (lookupExp_of_mem hnd hkv'')
        refine ⟨(kv''.1, new), lookupExp_mem hlu, hk'', ?_⟩
        show new.f ≤ manhattan c + kv.2.depth + 1
        omega
    · left
      have hkvE := hexp' kv hkv
      exact ⟨kv.2, hfront, hkvE.1.symm, le_refl _⟩
  · obtain ⟨kv, hkv, m, hrg, hb⟩ := hopt
    have hkvE := hexp kv hkv
    obtain ⟨new, hlu, hnf⟩ := relaxAll_lookup_mono (generate_successors curr)
      rest explored (lookupExp_of_mem hnd hkv)
    have hmem' := lookupExp_mem hlu
    have hnewE := hexp' _ hmem'
    have hkeq : boardKey kv.2.board = boardKey new.board :=
      hkvE.1.symm.trans hnewE.1
    have hrg' : ReachBGoal new.board m :=
      reachBGoal_key hkvE.2.1 hnewE.2.1 hkeq hrg
    have hman : manhattan new.board = manhattan kv.2.board :=
      manhattan_key_congr hnewE.2.1 hkvE.2.1 hkeq.symm
    refine ⟨(kv.1, new), hmem', m, hrg', ?_⟩
    show new.depth.toNat + m ≤ dstar
    have e1 := hkvE.2.2.2.1
    have e2 : new.f = manhattan new.board + new.depth := hnewE.2.2.2.1
    have d1 := hkvE.2.2.1
    have d2 : 0 ≤ new.depth := hnewE.2.2.1
    omega

/-- A finished A* run under the invariant returns a goal state of depth
at most `dstar`. -/
theorem astarLoop_opt {b0 : Board} {dstar : Nat} :
    ∀ (n : Nat) (frontier : List State) (explored : List (String × State))
      (r : Option State),
    AstarInv b0 dstar frontier explored →
    astarLoop n frontier explored = some r →
    ∃ t, r = some t ∧ goal_test t = true ∧ Good b0 t ∧ t.depth ≤ (dstar : Int) := by
  intro n
  induction n with
  | zero =>
    intro _ _ _ _ hrun
    cases hrun
  | succ n ih =>
    intro frontier explored r hinv hrun
    have hchase : ∃ s ∈ frontier, Good b0 s ∧ s.f ≤ (dstar : Int) := by
      obtain ⟨hfr, hexp, hnd, hdich, kvs, hkvs, ms, hrgs, hbs⟩ := hinv
      exact chase ms frontier explored hfr hexp hdich kvs hkvs hrgs hbs
    obtain ⟨sw, hsw, hswg, hswf⟩ := hchase
    unfold astarLoop at hrun
    cases hpm : popMin frontier with
    | none =>
      rw [popMin_eq_none_iff] at hpm
      subst hpm
      cases hsw
    | some cr =>
      obtain ⟨curr, rest⟩ := cr
      rw [hpm] at hrun
      dsimp only at hrun
      obtain ⟨hcm, -, hmin, -⟩ := popMin_spec hpm
      have hcg : Good b0 curr := hinv.1 curr hcm
      by_cases hgt : goal_test curr = true
      · rw [if_pos hgt] at hrun
        cases hrun
        refine ⟨curr, rfl, hgt, hcg, ?_⟩
        have h0 : manhattan curr.board = 0 := manhattan_goal_zero hcg.1 hgt
        have hf := hcg.2.2.1
        have hms := hmin sw hsw
        omega
      · have hgf : goal_test curr = false := by
          cases hb : goal_test curr
          · rfl
          · exact absurd hb hgt
        rw [if_neg hgt] at hrun
        exact ih _ _ r (astarInv_step hinv hpm hgf) hrun

/-- C2 — A* optimality: from an initial state (`f = manhattan`, depth 0,
no parent) over an invariant-satisfying board from which some goal state
is reachable, `astar` returns a goal state whose depth is the least
number of generator moves reaching a goal board; consequently its depth
never exceeds the depth of any terminal state `dfs` returns for the same
initial state. -/
theorem astar_optimal (b0 : Board) (init : State) (k : Nat) (hInv : Inv b0)
    (hinit : init = State.mk b0 (manhattan b0) 0 none) (hreach : ReachBGoal b0 k) :
    ∃ n t, astar n init = some (some t) ∧ goal_test t = true ∧
      IsLeast {m : Nat | ReachBGoal b0 m} t.depth.toNat ∧
      ∀ fuel td, dfs fuel init = some (some td) → t.depth ≤ td.depth := by
  classical
  subst hinit
  have hex : ∃ m, ReachBGoal b0 m := ⟨k, hreach⟩
  obtain ⟨dstar, hdmem, hdleast⟩ :
      ∃ d, ReachBGoal b0 d ∧ ∀ m, ReachBGoal b0 m → d ≤ m :=
    ⟨Nat.find hex, Nat.find_spec hex, fun m hm => Nat.find_min' hex hm⟩
  have hgood0 : Good b0 (State.mk b0 (manhattan b0) 0 none) := by
    refine ⟨hInv, le_refl _, ?_, ReachN.refl b0⟩
    show manhattan b0 = manhattan b0 + 0
    omega
  have hinv0 : AstarInv b0 dstar [State.mk b0 (manhattan b0) 0 none]
      [(boardKey b0, State.mk b0 (manhattan b0) 0 none)] := by
    refine ⟨?_, ?_, ?_, ?_, ?_⟩
    · intro s hs
      rw [List.mem_singleton] at hs
      subst hs
      exact hgood0
    · intro kv hkv
      rw [List.mem_singleton] at hkv
      subst hkv
      exact ⟨rfl, hgood0⟩
    · simp [expKeys]
    · intro kv hkv
      rw [List.mem_singleton] at hkv
      subst hkv
      left
      exact ⟨State.mk b0 (manhattan b0) 0 none, List.mem_singleton.mpr rfl,
        rfl, le_refl _⟩
    · refine ⟨(boardKey b0, State.mk b0 (manhattan b0) 0 none),
        List.mem_singleton.mpr rfl, dstar, hdmem, ?_⟩
      show ((0 : Int)).toNat + dstar ≤ dstar
      omega
  obtain ⟨n, hsome⟩ := astar_term (State.mk b0 (manhattan b0) 0 none) (le_refl 0)
  obtain ⟨r, hr⟩ := Option.isSome_iff_exists.mp hsome
  have hrloop : astarLoop n [State.mk b0 (manhattan b0) 0 none]
      [(boardKey b0, State.mk b0 (manhattan b0) 0 none)] = some r := hr
  obtain ⟨t, hrt, hgoal, htgood, htle⟩ := astarLoop_opt n _ _ r hinv0 hrloop
  subst hrt
  refine ⟨n, t, hr, hgoal, ⟨⟨t.board, htgood.2.2.2, hgoal⟩, ?_⟩, ?_⟩
  · intro m hm
    have h1 := hdleast m hm
    have h2 : 0 ≤ t.depth := htgood.2.1
    have h3 : t.depth ≤ (dstar : Int) := htle
    omega
  · intro fuel td htd
    have hfr0 : ∀ s ∈ [State.mk b0 (manhattan b0) 0 none],
        Lineage (State.mk b0 (manhattan b0) 0 none) s := by
      intro s hs
      rw [List.mem_singleton] at hs
      subst hs
      exact Lineage.root
    unfold dfs at htd
    obtain ⟨hlin, hgld⟩ := dfsLoop_sound hfr0 htd
    obtain ⟨hled, hrd⟩ := lineage_depth_reach hlin
    have hled' : (0 : Int) ≤ td.depth := hled
    have hrd' : ReachN b0 (td.depth - 0).toNat td.board := hrd
    have hrg : ReachBGoal b0 (td.depth - 0).toNat := ⟨td.board, hrd', hgld⟩
    have h1 := hdleast _ hrg
    have h3 : t.depth ≤ (dstar : Int) := htle
    omega

/-- Witness for C2: the already-solved one-piece board, optimal depth 0. -/
theorem astar_optimal_witness :
    Inv (Board.mk [Piece.mk true false 1 3 none]) ∧
    ReachBGoal (Board.mk [Piece.mk true false 1 3 none]) 0 ∧
    (∃ n t, astar n (State.mk (Board.mk [Piece.mk true false 1 3 none])
        (manhattan (Board.mk [Piece.mk true false 1 3 none])) 0 none)
        = some (some t) ∧
      goal_test t = true ∧
      IsLeast {m : Nat | ReachBGoal (Board.mk [Piece.mk true false 1 3 none]) m}
        t.depth.toNat ∧
      ∀ fuel td, dfs fuel (State.mk (Board.mk [Piece.mk true false 1 3 none])
          (manhattan (Board.mk [Piece.mk true false 1 3 none])) 0 none)
        = some (some td) → t.depth ≤ td.depth) :=
  ⟨by decide,
    ⟨Board.mk [Piece.mk true false 1 3 none], ReachN.refl _, by decide⟩,
    astar_optimal (Board.mk [Piece.mk true false 1 3 none]) _ 0 (by decide) rfl
      ⟨Board.mk [Piece.mk true false 1 3 none], ReachN.refl _, by decide⟩⟩

/-- Witness for C8: the empty board has no reachable goal state. -/
theorem no_solution_behavior_witness :
    (State.mk (Board.mk []) 0 0 none).depth = 0 ∧
    (∀ n, ¬ ReachBGoal (State.mk (Board.mk []) 0 0 none).board n) ∧
    ((∃ n, dfs n (State.mk (Board.mk []) 0 0 none) = some none ∧
        astar n (State.mk (Board.mk []) 0 0 none) = some none) ∧
      get_solution none = ([], 0)) :=
  ⟨rfl, fun n => emptyBoard_no_goal n,
    no_solution_behavior _ rfl (fun n => emptyBoard_no_goal n)⟩

end Hrd
